import Mathlib

/-!
A shallow embedding of the Fluent runtime message resolver
(`fluent/src/resolver.js` together with the value types of
`fluent/src/types.js`), and proofs about the claims of its
specification.

Modelling conventions:
* JavaScript numbers are modelled as `Option ℚ` (`Option.none` plays the
  role of `NaN`); `parseFloat` is modelled by `parseJSNumber`, a decimal
  prefix parser (exponent notation and leading whitespace are outside the
  model).
* The locale-sensitive `Intl` formatters (number, date-time, plural rules)
  are external collaborators injected through the context, exactly as the
  specification scopes them out; they appear as function fields of `Ctx`.
* The mutable error array is threaded explicitly: each operation takes the
  current error list and returns the new one (the code only ever pushes).
* The `WeakSet` of dirty patterns is a `Finset ℕ` of pattern identities;
  every pattern node of the runtime AST carries a numeric identity, two
  occurrences of the same message value share the identity because the
  message store is shared.
* Recursion across the message store is bounded by an explicit fuel
  parameter on the central dispatcher `TypeF`; termination is recovered by
  the sufficiency theorem for claim C2.
-/

/-- Error values recorded on the error list, tagged like the JavaScript
`RangeError` / `ReferenceError` / `TypeError` classes used by the resolver. -/
inductive JSErr where
  | range (msg : String)
  | reference (msg : String)
  | typeErr (msg : String)
deriving DecidableEq, Repr

/-- Runtime values of the resolver (`types.js` plus the two untyped cases the
resolver works with: raw JavaScript strings and the un-joined Parts arrays
returned by `Pattern`). A bare function value (returned by
`FunctionReference`) is represented by the function's name; the context
resolves the name to the callable at the call site. -/
inductive FluentValue where
  | str (s : String)
  | none (hint : Option String)
  | number (value : Option ℚ) (opts : Option (List (String × FluentValue)))
  | datetime (value : ℤ) (opts : Option (List (String × FluentValue)))
  | keyword (name : String)
  | func (name : String)
  | parts (vals : List FluentValue)

/-- Named options attached to numbers/dates and passed to functions. -/
abbrev NamedOpts := List (String × FluentValue)

/-- A callable function value: positional arguments and named arguments to a
result, as invoked by `CallExpression`. -/
abbrev FnVal := List FluentValue → NamedOpts → FluentValue

/-- An entry of the context's user-supplied function registry. A registry slot
may hold a value that is not callable (the `typeof func !== 'function'`
branch of `FunctionReference`). -/
inductive CtxFn where
  | callable (f : FnVal)
  | notCallable

/-- Wrapped runtime values that an argument bag may already contain
(`arg instanceof FluentType` in `ExternalArgument`). -/
inductive WrappedV where
  | wnone (hint : Option String)
  | wnumber (value : Option ℚ) (opts : Option NamedOpts)
  | wdatetime (value : ℤ) (opts : Option NamedOpts)
  | wkeyword (name : String)

/-- External argument bag values, by JavaScript kind: an already wrapped
runtime value, a string, a number, a `Date` instant, or anything else
(carrying its `typeof` string for the error message). -/
inductive ArgVal where
  | wrapped (w : WrappedV)
  | str (s : String)
  | num (value : Option ℚ)
  | date (instant : ℤ)
  | other (tyName : String)

/-- The argument bag: `Option.none` models a missing (`undefined`) bag. -/
abbrev ArgBag := Option (List (String × ArgVal))

/-- The `kw` and `num` runtime AST nodes allowed as variant keys. -/
inductive VKey where
  | kw (name : String)
  | num (val : String)

mutual
/-- A message value or attribute value: either a plain string (the parser's
fast path for simple messages) or a pattern array carrying its identity. -/
inductive PatOrStr where
  | str (s : String)
  | pat (pid : ℕ) (elems : List Expr)
/-- Runtime AST expressions, one constructor per tag dispatched by `Type`
(`kw`, `num`, `ext`, `fun`, `call`, `ref`, `attr`, `var`, `sel`), plus plain
string elements. -/
inductive Expr where
  | str (s : String)
  | kw (name : String)
  | num (val : String)
  | ext (name : String)
  | func (name : String)
  | call (fn : String) (args : List CallArg)
  | ref (name : String)
  | attr (id : String) (name : String)
  | varRef (id : String) (key : VKey)
  | sel (exp : Option Expr) (vars : List Variant) (dflt : ℕ)
/-- A select-expression variant: a key and a pattern value. -/
inductive Variant where
  | mk (key : VKey) (val : PatOrStr)
/-- A call-expression argument: positional, or named (`narg`). -/
inductive CallArg where
  | pos (e : Expr)
  | named (name : String) (e : Expr)
end

/-- Key accessor of a variant. -/
def Variant.key : Variant → VKey
  | .mk k _ => k

/-- Value accessor of a variant. -/
def Variant.val : Variant → PatOrStr
  | .mk _ v => v

/-- An entry of the message store: a bare pattern/string, or a message object
with an optional value and attributes (the entry-tree contract). -/
structure MsgEntry where
  val : Option PatOrStr
  attrs : List (String × PatOrStr)

/-- Entries are bare patterns or message objects. -/
inductive Entry where
  | bare (p : PatOrStr)
  | msg (m : MsgEntry)

/-- The message context: the store, the function registry, the isolation
flag, and the injected locale-sensitive formatters (the `Intl` objects the
context memoizes, treated as external collaborators). -/
structure Ctx where
  messages : List (String × Entry)
  functions : String → Option CtxFn
  useIsolating : Bool
  formatNumber : Option NamedOpts → Option ℚ → String
  formatDate : Option NamedOpts → ℤ → String
  pluralSelect : Option NamedOpts → Option ℚ → String

/-- Prevent expansion of too long placeables (`MAX_PLACEABLE_LENGTH`). -/
def MAX_PLACEABLE_LENGTH : ℕ := 2500

/-- The FSI bidi isolation character U+2068, as a one-character string. -/
def FSI : String := "⁨"

/-- The PDI bidi isolation character U+2069, as a one-character string. -/
def PDI : String := "⁩"

/-- Digits of a decimal numeral to a natural number. -/
def digitsToNat (l : List Char) : ℕ :=
  l.foldl (fun acc c => acc * 10 + (c.toNat - 48)) 0

/-- Model of JavaScript `parseFloat` on decimal numerals: an optional sign,
then digits with an optional fractional part; trailing garbage is ignored
(prefix parse) and an unparseable string gives `Option.none` (`NaN`). -/
def parseJSNumber (s : String) : Option ℚ :=
  let cs := s.toList
  let signAndRest : ℤ × List Char :=
    match cs with
    | '-' :: t => (-1, t)
    | '+' :: t => (1, t)
    | t => (1, t)
  let sign := signAndRest.1
  let rest := signAndRest.2
  let intPart := rest.takeWhile Char.isDigit
  let afterInt := rest.dropWhile Char.isDigit
  match afterInt with
  | '.' :: t =>
    let fracPart := t.takeWhile Char.isDigit
    if intPart.isEmpty ∧ fracPart.isEmpty then Option.none
    else some (mkRat (sign * (digitsToNat intPart * 10 ^ fracPart.length +
      digitsToNat fracPart)) (10 ^ fracPart.length))
  | _ =>
    if intPart.isEmpty then Option.none
    else some (mkRat (sign * digitsToNat intPart) 1)

/-- JavaScript `x || dflt` for an optional string (the empty string is
falsy), used by `FluentNone.valueOf`. -/
def jsStrOr (v : Option String) (dflt : String) : String :=
  match v with
  | some s => if s.isEmpty then dflt else s
  | Option.none => dflt

/-- The `valueOf` dispatch of the value types (`types.js`): `FluentNone`
yields its hint or `"???"`, strings and keywords yield themselves, numbers
and dates go through the context's formatters. A bare function value and an
un-joined Parts array have no string `valueOf` in the JavaScript code (they
yield non-string objects there); those two branches are unreachable in
resolved output and are given placeholder results here. -/
def FluentValue.valueOf (ctx : Ctx) : FluentValue → String
  | .str s => s
  | .none hint => jsStrOr hint "???"
  | .number v opts => ctx.formatNumber opts v
  | .datetime t opts => ctx.formatDate opts t
  | .keyword k => k
  | .func name => name
  | .parts _ => ""

/-- Total character length of a placeable: the sum of the `valueOf` lengths
of its parts (`PlaceableLength` in `resolver.js`). -/
def PlaceableLength (ctx : Ctx) (parts : List FluentValue) : ℕ :=
  parts.foldl (fun sum part => sum + (part.valueOf ctx).length) 0

/-- Whether a resolved variant key may be matched against the selector
(`key instanceof FluentNumber || key instanceof FluentKeyword`). -/
def keyCanMatch : FluentValue → Bool
  | .number _ _ => true
  | .keyword _ => true
  | _ => false

/-- The `match` dispatch of the value types: `FluentNumber.match` compares
numeric values (`NaN` never equal), `FluentKeyword.match` compares with
keywords and raw strings, and matches a number through the plural-rules
formatter selected with the number's options. Values without a `match`
method never match (callers guard with `keyCanMatch`). -/
def valueMatch (ctx : Ctx) : FluentValue → FluentValue → Bool
  | .number v _, other =>
    match other with
    | .number w _ =>
      match v, w with
      | some a, some b => a == b
      | _, _ => false
    | _ => false
  | .keyword k, other =>
    match other with
    | .keyword k2 => k == k2
    | .str s => k == s
    | .number w wopts => k == ctx.pluralSelect wopts w
    | _ => false
  | _, _ => false

/-- Resolve a variant key node to its runtime value (the `kw` and `num`
arms of `Type`): keywords wrap, number literals go through `parseFloat`
with default options. -/
def TypeVKey : VKey → FluentValue
  | .kw n => .keyword n
  | .num v => .number (parseJSNumber v) Option.none

/-- The `FluentNumber` constructor applied to a string: `parseFloat` the
input eagerly and store the numeric result. -/
def FluentNumberOfString (s : String) (opts : Option NamedOpts) : FluentValue :=
  .number (parseJSNumber s) opts

/-- Unwrap an already wrapped argument value. -/
def WrappedV.toValue : WrappedV → FluentValue
  | .wnone h => .none h
  | .wnumber v opts => .number v opts
  | .wdatetime t opts => .datetime t opts
  | .wkeyword k => .keyword k

/-- Resolve a reference to an external argument (`ExternalArgument`):
missing bag or key is a reference error with a `FluentNone` fallback,
wrapped values pass through, strings stay raw, numbers and dates are
wrapped, and any other kind is a type error with a `FluentNone` fallback. -/
def ExternalArgumentR (args : ArgBag) (name : String) (errs : List JSErr) :
    FluentValue × List JSErr :=
  match args with
  | Option.none =>
    (.none (some name), errs ++ [.reference ("Unknown external: " ++ name)])
  | some bag =>
    match bag.lookup name with
    | Option.none =>
      (.none (some name), errs ++ [.reference ("Unknown external: " ++ name)])
    | some arg =>
      match arg with
      | .wrapped w => (w.toValue, errs)
      | .str s => (.str s, errs)
      | .num v => (.number v Option.none, errs)
      | .date t => (.datetime t Option.none, errs)
      | .other ty =>
        (.none (some name),
          errs ++ [.typeErr ("Unsupported external type: " ++ name ++ ", " ++ ty)])

/-- Merge of formatting options, modelled from the spec: `builtins.js` is
not among the sources; the spec says the built-ins wrap their argument
"with merged options". Later entries override earlier ones on lookup. -/
def mergeOpts (base : Option NamedOpts) (extra : NamedOpts) : Option NamedOpts :=
  some (base.getD [] ++ extra)

/-- Modelled from the spec: `builtins.js` is not among the sources. Per
§4.5 the registry provides `NUMBER` (wrap the first positional argument as a
`Number` with merged options) and `DATETIME` (the same for `DateTime`) and
nothing else. -/
def builtins : String → Option FnVal
  | "NUMBER" => some (fun pos named =>
      match pos with
      | .number v opts :: _ => .number v (mergeOpts opts named)
      | _ => .none Option.none)
  | "DATETIME" => some (fun pos named =>
      match pos with
      | .datetime t opts :: _ => .datetime t (mergeOpts opts named)
      | _ => .none Option.none)
  | _ => Option.none

/-- The callable a function name resolves to: user-supplied functions first,
then built-ins (`functions[name] || builtins[name]`). -/
def lookupCallable (ctx : Ctx) (name : String) : Option FnVal :=
  match ctx.functions name with
  | some (.callable f) => some f
  | some .notCallable => Option.none
  | Option.none => builtins name

/-- Resolve a reference to a function (`FunctionReference`): missing name is
a reference error, a non-callable registry slot is a type error, otherwise
the callable (represented by its name) is returned. -/
def FunctionReferenceR (ctx : Ctx) (name : String) (errs : List JSErr) :
    FluentValue × List JSErr :=
  match ctx.functions name with
  | some (.callable _) => (.func name, errs)
  | some .notCallable =>
    (.none (some (name ++ "()")),
      errs ++ [.typeErr ("Function " ++ name ++ "() is not callable")])
  | Option.none =>
    match builtins name with
    | some _ => (.func name, errs)
    | Option.none =>
      (.none (some (name ++ "()")),
        errs ++ [.reference ("Unknown function: " ++ name ++ "()")])

/-- Resolve a reference to a message object (`MessageReference`): the entry
from the store, or a `FluentNone` fallback plus a reference error. -/
def MessageReferenceR (ctx : Ctx) (name : String) (errs : List JSErr) :
    (Entry ⊕ FluentValue) × List JSErr :=
  match ctx.messages.lookup name with
  | Option.none =>
    (.inr (.none (some name)), errs ++ [.reference ("Unknown message: " ++ name)])
  | some m => (.inl m, errs)

/-- Choose the default member (`DefaultMember`): the variant at the default
index if it exists, otherwise a range error and a `FluentNone`. -/
def DefaultMemberR (vars : List Variant) (dflt : ℕ) (errs : List JSErr) :
    (Variant ⊕ FluentValue) × List JSErr :=
  match vars[dflt]? with
  | some v => (.inl v, errs)
  | Option.none => (.inr (.none Option.none), errs ++ [.range "No default"])

/-- The variant-matching loop of `SelectExpression`: resolve each key in
declaration order, and take the first whose `match` against the selector
succeeds (keys that cannot match are skipped by the guard). -/
def findMatchingVariant (ctx : Ctx) (vars : List Variant) (selector : FluentValue) :
    Option Variant :=
  vars.find? (fun v =>
    keyCanMatch (TypeVKey v.key) && valueMatch ctx (TypeVKey v.key) selector)

/-- The variant-matching loop of `VariantExpression`: here the requested
keyword's `match` method is called with each variant key as the argument. -/
def findVariantMatchingKeyword (ctx : Ctx) (keyword : FluentValue)
    (vars : List Variant) : Option Variant :=
  vars.find? (fun v => valueMatch ctx keyword (TypeVKey v.key))

/-- The `val` property of a message object; bare strings and arrays have no
such property. -/
def entryVal : Entry → Option PatOrStr
  | .bare _ => Option.none
  | .msg m => m.val

/-- The attribute search of `AttributeExpression`: exact string match
against the attribute names in insertion order. -/
def entryAttr : Entry → String → Option PatOrStr
  | .bare _, _ => Option.none
  | .msg m, name => m.attrs.lookup name

/-- The `isVariantList` shape test of `VariantExpression`:
`Array.isArray(node) && node[0].type === 'sel' && node[0].exp === null`.
A missing value or a plain string is not an array (`some false`); on an
array whose first element is a selector-less select node the test passes
(`some true`); on an *empty* array `node[0]` is `undefined` and the `.type`
access throws a `TypeError` (`Option.none`) which escapes all the way out
of `format`. A first element that is a string or any other expression node
has no `'sel'` type (`some false`). -/
def isVariantListR : Option PatOrStr → Option Bool
  | some (.pat _ []) => Option.none
  | some (.pat _ (Expr.sel Option.none _ _ :: _)) => some true
  | _ => some false

/-- The variants accessed in the positive branch of the `isVariantList`
test (`message.val[0].vars`), fused with the shape of that branch: a
pattern whose first element is a select expression without a selector.
Only consulted by `VarR` after `isVariantListR` has returned `some`
(the empty-array case, where the JavaScript test throws, never gets
here). -/
def variantListVars : Option PatOrStr → Option (List Variant)
  | some (.pat _ (Expr.sel Option.none vars _ :: _)) => some vars
  | _ => Option.none

/-- The entry shape on which `isVariantList` throws: a message whose value
is an empty pattern array. -/
def entryThrows (ent : Entry) : Bool :=
  match entryVal ent with
  | some (.pat _ []) => true
  | _ => false

/-- No entry of the message store has an empty pattern array as its value,
so no variant expression resolved against this store can make
`isVariantList` throw. -/
def CtxNoThrow (ctx : Ctx) : Bool :=
  ctx.messages.all (fun p => !(entryThrows p.2))

/-- Result type of resolver steps: the resolved value together with the
updated error list and dirty set. `Option.none` is a run that returns no
result: fuel exhaustion, or a thrown exception aborting the resolution
(the `isVariantList` `TypeError`) — a throwing run yields `Option.none`
at every fuel, while a fuel-starved one succeeds at some larger fuel. -/
abbrev RRes := Option (FluentValue × List JSErr × Finset ℕ)

/-- A resolver for expressions, threaded through the pattern walk: the
recursive `Type` dispatcher at some fuel. -/
abbrev Resolver := Expr → List JSErr → Finset ℕ → RRes

/-- The per-placeable step of `Pattern` (lines 374-390 of `resolver.js`):
a Parts array is measured, replaced by a range error and a single
`FluentNone` when it exceeds `MAX_PLACEABLE_LENGTH`, and spliced otherwise;
any other value is pushed directly, with no length check. -/
def placeChunk (ctx : Ctx) (part : FluentValue) (errs : List JSErr) :
    List FluentValue × List JSErr :=
  match part with
  | .parts l =>
    let len := PlaceableLength ctx l
    if len > MAX_PLACEABLE_LENGTH then
      ([.none Option.none],
        errs ++ [.range ("Too many characters in placeable (" ++ toString len ++
          ", max allowed is " ++ toString MAX_PLACEABLE_LENGTH ++ ")")])
    else (l, errs)
  | _ => ([part], errs)

/-- Bracket a placeable's output in the FSI/PDI isolation marks when the
context's `useIsolating` flag is set; literal fragments never go through
this. -/
def isoWrap (ctx : Ctx) (chunk : List FluentValue) : List FluentValue :=
  if ctx.useIsolating then FluentValue.str FSI :: (chunk ++ [FluentValue.str PDI])
  else chunk

/-- The `typeof elem === 'string'` test of the pattern walk, on AST
elements. -/
def isStrElem : Expr → Option String
  | .str s => some s
  | _ => Option.none

/-- The `typeof elem === 'string'` test of the pattern walk, on resolved
values (the fresh result array of the double dispatch). -/
def isStrVal : FluentValue → Option String
  | .str s => some s
  | _ => Option.none

mutual
/-- The `Type` dispatch applied to an already-resolved runtime value (the
double dispatch of the `attr`/`var` fallback paths): strings and
`FluentNone` pass through the fast path, a Parts array is walked again as a
fresh pattern (a fresh array is never in the dirty set), and every other
value object has neither a `type` nor a `val` property, so it lands in a
range error with a `FluentNone` result. -/
def TypeOfValue (ctx : Ctx) (v : FluentValue) (errs : List JSErr) :
    FluentValue × List JSErr :=
  match v with
  | .str s => (.str s, errs)
  | .none h => (.none h, errs)
  | .parts l =>
    match patternVGo ctx l errs with
    | (res, errs') => (.parts res, errs')
  | _ => (.none Option.none, errs ++ [.range "No value"])
/-- The element walk of `Pattern` applied to a list of already-resolved
values (the fresh result array of the double dispatch): literal strings are
pushed raw, everything else is re-dispatched, measured/spliced and
isolation-bracketed exactly like an AST pattern element. -/
def patternVGo (ctx : Ctx) (l : List FluentValue) (errs : List JSErr) :
    List FluentValue × List JSErr :=
  match l with
  | [] => ([], errs)
  | e :: rest =>
    match isStrVal e with
    | some s =>
      match patternVGo ctx rest errs with
      | (r, errs') => (FluentValue.str s :: r, errs')
    | Option.none =>
      match TypeOfValue ctx e errs with
      | (part, errs1) =>
        match placeChunk ctx part errs1 with
        | (chunk, errs2) =>
          match patternVGo ctx rest errs2 with
          | (r, errs3) => (isoWrap ctx chunk ++ r, errs3)
end

/-- The element walk of `Pattern` over AST pattern elements, parameterized
by the expression resolver (the `Type` dispatcher at the current fuel):
literal strings are pushed raw; each placeable is resolved, measured/spliced
by `placeChunk`, and isolation-bracketed by `isoWrap`. -/
def patternWalk (ctx : Ctx) (resolveE : Resolver) :
    List Expr → List JSErr → Finset ℕ →
    Option (List FluentValue × List JSErr × Finset ℕ)
  | [], errs, d => some ([], errs, d)
  | e :: rest, errs, d =>
    match isStrElem e with
    | some s =>
      match patternWalk ctx resolveE rest errs d with
      | some (r, errs', d') => some (FluentValue.str s :: r, errs', d')
      | Option.none => Option.none
    | Option.none =>
      match resolveE e errs d with
      | Option.none => Option.none
      | some (part, errs1, d1) =>
        match placeChunk ctx part errs1 with
        | (chunk, errs2) =>
          match patternWalk ctx resolveE rest errs2 d1 with
          | some (r, errs3, d3) => some (isoWrap ctx chunk ++ r, errs3, d3)
          | Option.none => Option.none

/-- The argument walk of `CallExpression`: positional arguments are
collected in source order, named (`narg`) arguments are collected into the
named map, each resolved through the expression resolver. -/
def argsWalk (resolveE : Resolver) :
    List CallArg → List JSErr → Finset ℕ →
    Option (List FluentValue × NamedOpts × List JSErr × Finset ℕ)
  | [], errs, d => some ([], [], errs, d)
  | .pos e :: rest, errs, d =>
    match resolveE e errs d with
    | Option.none => Option.none
    | some (v, errs1, d1) =>
      match argsWalk resolveE rest errs1 d1 with
      | some (pos, named, errs2, d2) => some (v :: pos, named, errs2, d2)
      | Option.none => Option.none
  | .named n e :: rest, errs, d =>
    match resolveE e errs d with
    | Option.none => Option.none
    | some (v, errs1, d1) =>
      match argsWalk resolveE rest errs1 d1 with
      | some (pos, named, errs2, d2) => some (pos, (n, v) :: named, errs2, d2)
      | Option.none => Option.none

/-- Resolve a pattern (`Pattern` in `resolver.js`): the cycle guard on the
dirty set by pattern identity, the tagged insertion, the element walk, and
the removal on exit. -/
def PatternR (ctx : Ctx) (resolveE : Resolver) (pid : ℕ) (pelems : List Expr)
    (errs : List JSErr) (d : Finset ℕ) : RRes :=
  if pid ∈ d then
    some (.none Option.none, errs ++ [.range "Cyclic reference"], d)
  else
    match patternWalk ctx resolveE pelems errs (insert pid d) with
    | some (res, errs', d') => some (.parts res, errs', d'.erase pid)
    | Option.none => Option.none

/-- The `Type` dispatch applied to a message value or attribute value:
the string fast path, or pattern resolution for an array. -/
def TypePatR (ctx : Ctx) (resolveE : Resolver) (p : PatOrStr)
    (errs : List JSErr) (d : Finset ℕ) : RRes :=
  match p with
  | .str s => some (.str s, errs, d)
  | .pat pid pelems => PatternR ctx resolveE pid pelems errs d

/-- The `Type` dispatch applied to a message entry (the `case undefined`
arm): a bare entry is its own value; a message object resolves its `val`
field, and reports a range error when there is none. -/
def TypeEntryR (ctx : Ctx) (resolveE : Resolver) (ent : Entry)
    (errs : List JSErr) (d : Finset ℕ) : RRes :=
  match ent with
  | .bare p => TypePatR ctx resolveE p errs d
  | .msg m =>
    match m.val with
    | Option.none => some (.none Option.none, errs ++ [.range "No value"], d)
    | some p => TypePatR ctx resolveE p errs d

/-- Resolve a select expression to the member object (`SelectExpression`):
no selector or a `FluentNone` selector falls through to the default member;
otherwise the first variant whose key matches the selector wins, and the
default member is the last resort. -/
def SelectR (ctx : Ctx) (resolveE : Resolver) (exp : Option Expr)
    (vars : List Variant) (dflt : ℕ) (errs : List JSErr) (d : Finset ℕ) :
    Option ((Variant ⊕ FluentValue) × List JSErr × Finset ℕ) :=
  match exp with
  | Option.none =>
    match DefaultMemberR vars dflt errs with
    | (r, errs') => some (r, errs', d)
  | some sexp =>
    match resolveE sexp errs d with
    | Option.none => Option.none
    | some (selector, errs1, d1) =>
      match selector with
      | .none _ =>
        match DefaultMemberR vars dflt errs1 with
        | (r, errs') => some (r, errs', d1)
      | _ =>
        match findMatchingVariant ctx vars selector with
        | some vnt => some (.inl vnt, errs1, d1)
        | Option.none =>
          match DefaultMemberR vars dflt errs1 with
          | (r, errs') => some (r, errs', d1)

/-- Resolve an attribute expression to the attribute object
(`AttributeExpression`): a missing message propagates its `FluentNone`;
a found attribute is returned for further dispatch; a missing attribute
logs a reference error and falls back to the message's own value. -/
def AttrR (ctx : Ctx) (resolveE : Resolver) (id name : String)
    (errs : List JSErr) (d : Finset ℕ) :
    Option ((PatOrStr ⊕ FluentValue) × List JSErr × Finset ℕ) :=
  match MessageReferenceR ctx id errs with
  | (.inr v, errs') => some (.inr v, errs', d)
  | (.inl m, errs') =>
    match entryAttr m name with
    | some p => some (.inl p, errs', d)
    | Option.none =>
      match TypeEntryR ctx resolveE m
          (errs' ++ [.reference ("Unknown attribute: " ++ name)]) d with
      | Option.none => Option.none
      | some (v, errs2, d2) => some (.inr v, errs2, d2)

/-- Resolve a variant expression to the variant object
(`VariantExpression`): a missing message propagates its `FluentNone`;
the `isVariantList` shape test runs next — on a message whose value is an
empty pattern it throws a `TypeError` (`Option.none`, aborting the whole
resolution); if the value is a variant list, the first variant whose key
the requested keyword matches is returned; otherwise a reference error is
logged and the message's own value is the fallback. -/
def VarR (ctx : Ctx) (resolveE : Resolver) (id : String) (key : VKey)
    (errs : List JSErr) (d : Finset ℕ) :
    Option ((Variant ⊕ FluentValue) × List JSErr × Finset ℕ) :=
  match MessageReferenceR ctx id errs with
  | (.inr v, errs') => some (.inr v, errs', d)
  | (.inl m, errs') =>
    match isVariantListR (entryVal m) with
    | Option.none => Option.none
    | some _ =>
      match (variantListVars (entryVal m)).bind
          (findVariantMatchingKeyword ctx (TypeVKey key)) with
      | some vnt => some (.inl vnt, errs', d)
      | Option.none =>
        match TypeEntryR ctx resolveE m
            (errs' ++ [.reference ("Unknown variant: " ++
              (TypeVKey key).valueOf ctx)]) d with
        | Option.none => Option.none
        | some (v, errs2, d2) => some (.inr v, errs2, d2)

/-- Resolve a call expression (`CallExpression`): a failed function lookup
propagates its `FluentNone`; otherwise split and resolve the arguments and
invoke the callable. -/
def CallR (ctx : Ctx) (resolveE : Resolver) (fn : String)
    (cargs : List CallArg) (errs : List JSErr) (d : Finset ℕ) : RRes :=
  match FunctionReferenceR ctx fn errs with
  | (FluentValue.none h, errs1) => some (.none h, errs1, d)
  | (_, errs1) =>
    match argsWalk resolveE cargs errs1 d with
    | Option.none => Option.none
    | some (pos, named, errs2, d2) =>
      match lookupCallable ctx fn with
      | some f => some (f pos named, errs2, d2)
      | Option.none => some (.none Option.none, errs2, d2)

/-- The central dispatcher `Type`, with an explicit fuel bound on the
recursion depth (`Option.none` is fuel exhaustion or a thrown exception;
the sufficiency theorem for claim C2 shows that on a store without
empty-pattern message values a computable fuel always suffices, while a
throwing input returns `Option.none` at every fuel). Each arm mirrors the
corresponding `switch` case of `Type` in `resolver.js`; the results of
`SelectExpression`, `AttributeExpression` and `VariantExpression` are passed
back into the dispatch, on the AST side (`TypePatR`, for member objects and
attribute patterns) or on the value side (`TypeOfValue`, for the fallback
values of the double dispatch). -/
def TypeF (ctx : Ctx) (args : ArgBag) : ℕ → Expr → List JSErr → Finset ℕ → RRes
  | 0, _, _, _ => Option.none
  | fuel + 1, e, errs, d =>
    match e with
    | .str s => some (.str s, errs, d)
    | .kw n => some (.keyword n, errs, d)
    | .num v => some (.number (parseJSNumber v) Option.none, errs, d)
    | .ext name =>
      match ExternalArgumentR args name errs with
      | (v, errs') => some (v, errs', d)
    | .func name =>
      match FunctionReferenceR ctx name errs with
      | (v, errs') => some (v, errs', d)
    | .call fn cargs => CallR ctx (TypeF ctx args fuel) fn cargs errs d
    | .ref name =>
      match MessageReferenceR ctx name errs with
      | (.inr v, errs') => some (v, errs', d)
      | (.inl m, errs') => TypeEntryR ctx (TypeF ctx args fuel) m errs' d
    | .attr id name =>
      match AttrR ctx (TypeF ctx args fuel) id name errs d with
      | Option.none => Option.none
      | some (.inl p, errs', d') => TypePatR ctx (TypeF ctx args fuel) p errs' d'
      | some (.inr v, errs', d') =>
        match TypeOfValue ctx v errs' with
        | (v2, errs2) => some (v2, errs2, d')
    | .varRef id key =>
      match VarR ctx (TypeF ctx args fuel) id key errs d with
      | Option.none => Option.none
      | some (.inl vnt, errs', d') =>
        TypePatR ctx (TypeF ctx args fuel) vnt.val errs' d'
      | some (.inr v, errs', d') =>
        match TypeOfValue ctx v errs' with
        | (v2, errs2) => some (v2, errs2, d')
    | .sel exp vars dflt =>
      match SelectR ctx (TypeF ctx args fuel) exp vars dflt errs d with
      | Option.none => Option.none
      | some (.inl vnt, errs', d') =>
        TypePatR ctx (TypeF ctx args fuel) vnt.val errs' d'
      | some (.inr v, errs', d') =>
        match TypeOfValue ctx v errs' with
        | (v2, errs2) => some (v2, errs2, d')

/-- The resolver entry point `resolve`: a fresh environment with an empty
dirty set, dispatching on the message entry; the dirty set is dropped from
the result (the error list is the out-parameter callers observe). -/
def resolveF (ctx : Ctx) (args : ArgBag) (fuel : ℕ) (root : Entry)
    (errs : List JSErr) : Option (FluentValue × List JSErr) :=
  match TypeEntryR ctx (TypeF ctx args fuel) root errs ∅ with
  | some (v, errs', _) => some (v, errs')
  | Option.none => Option.none

/-- String join of a resolved value: a Parts array joins the `valueOf` of
each part; any other value is its own `valueOf`. -/
def joinParts (ctx : Ctx) : FluentValue → String
  | .parts l => String.join (l.map (fun p => p.valueOf ctx))
  | v => v.valueOf ctx

/-- Modelled from the spec: `context.js` (the message context owning
`format`) is not among the sources. Per §4.3 a message entry without a
value formats to null (`Option.none`) and appends no errors; otherwise the
entry is resolved and, per §4.4.2 step 5, the resulting parts are joined by
calling `valueOf` on each. -/
def formatF (ctx : Ctx) (args : ArgBag) (fuel : ℕ) (root : Entry)
    (errs : List JSErr) : Option (Option String × List JSErr) :=
  match root with
  | .msg ⟨Option.none, _⟩ => some (Option.none, errs)
  | _ =>
    match resolveF ctx args fuel root errs with
    | some (v, errs') => some (some (joinParts ctx v), errs')
    | Option.none => Option.none

theorem patternWalk_dirty {ctx : Ctx} {resolveE : Resolver}
    (hres : ∀ e errs d r, resolveE e errs d = some r → r.2.2 = d) :
    ∀ {elems : List Expr} {errs : List JSErr} {d : Finset ℕ}
      {r : List FluentValue × List JSErr × Finset ℕ},
      patternWalk ctx resolveE elems errs d = some r → r.2.2 = d := by
  intro elems
  induction elems with
  | nil =>
    intro errs d r h
    simp only [patternWalk] at h
    cases h
    rfl
  | cons e rest ih =>
    intro errs d r h
    rw [patternWalk] at h
    split at h
    · -- string element
      split at h
      · next hw =>
          cases h
          have h3 := ih hw
          exact h3
      · exact absurd h (by simp)
    · -- placeable element
      split at h
      · exact absurd h (by simp)
      · next part errs1 d1 hres1 =>
          have hd1 : d1 = d := hres _ _ _ _ hres1
          split at h
          split at h
          · next hw =>
              cases h
              have h3 := ih hw
              exact h3.trans hd1
          · exact absurd h (by simp)

theorem argsWalk_dirty {resolveE : Resolver}
    (hres : ∀ e errs d r, resolveE e errs d = some r → r.2.2 = d) :
    ∀ {cargs : List CallArg} {errs : List JSErr} {d : Finset ℕ}
      {r : List FluentValue × NamedOpts × List JSErr × Finset ℕ},
      argsWalk resolveE cargs errs d = some r → r.2.2.2 = d := by
  intro cargs
  induction cargs with
  | nil =>
    intro errs d r h
    simp only [argsWalk] at h
    cases h
    rfl
  | cons a rest ih =>
    intro errs d r h
    cases a with
    | pos e =>
      rw [argsWalk] at h
      split at h
      · exact absurd h (by simp)
      · next v errs1 d1 hres1 =>
          have hd1 : d1 = d := hres _ _ _ _ hres1
          split at h
          · next hw =>
              cases h
              have h3 := ih hw
              exact h3.trans hd1
          · exact absurd h (by simp)
    | named n e =>
      rw [argsWalk] at h
      split at h
      · exact absurd h (by simp)
      · next v errs1 d1 hres1 =>
          have hd1 : d1 = d := hres _ _ _ _ hres1
          split at h
          · next hw =>
              cases h
              have h3 := ih hw
              exact h3.trans hd1
          · exact absurd h (by simp)

theorem PatternR_dirty {ctx : Ctx} {resolveE : Resolver}
    (hres : ∀ e errs d r, resolveE e errs d = some r → r.2.2 = d)
    {pid : ℕ} {pelems : List Expr} {errs : List JSErr} {d : Finset ℕ}
    {r : FluentValue × List JSErr × Finset ℕ}
    (h : PatternR ctx resolveE pid pelems errs d = some r) : r.2.2 = d := by
  rw [PatternR] at h
  split at h
  · cases h; rfl
  · next hpid =>
      split at h
      · next res errs2 d2 hw =>
          cases h
          have h3 := patternWalk_dirty hres hw
          show d2.erase pid = d
          rw [show d2 = insert pid d from h3]
          exact Finset.erase_insert hpid
      · exact absurd h (by simp)

theorem TypePatR_dirty {ctx : Ctx} {resolveE : Resolver}
    (hres : ∀ e errs d r, resolveE e errs d = some r → r.2.2 = d)
    {p : PatOrStr} {errs : List JSErr} {d : Finset ℕ}
    {r : FluentValue × List JSErr × Finset ℕ}
    (h : TypePatR ctx resolveE p errs d = some r) : r.2.2 = d := by
  cases p with
  | str s => rw [TypePatR] at h; cases h; rfl
  | pat pid pelems => exact PatternR_dirty hres h

theorem TypeEntryR_dirty {ctx : Ctx} {resolveE : Resolver}
    (hres : ∀ e errs d r, resolveE e errs d = some r → r.2.2 = d)
    {ent : Entry} {errs : List JSErr} {d : Finset ℕ}
    {r : FluentValue × List JSErr × Finset ℕ}
    (h : TypeEntryR ctx resolveE ent errs d = some r) : r.2.2 = d := by
  cases ent with
  | bare p => exact TypePatR_dirty hres h
  | msg m =>
    rw [TypeEntryR] at h
    split at h
    · cases h; rfl
    · exact TypePatR_dirty hres h

theorem SelectR_dirty {ctx : Ctx} {resolveE : Resolver}
    (hres : ∀ e errs d r, resolveE e errs d = some r → r.2.2 = d)
    {exp : Option Expr} {vars : List Variant} {dflt : ℕ}
    {errs : List JSErr} {d : Finset ℕ}
    {r : (Variant ⊕ FluentValue) × List JSErr × Finset ℕ}
    (h : SelectR ctx resolveE exp vars dflt errs d = some r) : r.2.2 = d := by
  rw [SelectR.eq_def] at h
  split at h
  · split at h
    cases h; rfl
  · split at h
    · exact absurd h (by simp)
    · next selector errs1 d1 hres1 =>
        have hd1 : d1 = d := hres _ _ _ _ hres1
        split at h
        · split at h
          cases h
          exact hd1
        · split at h
          · cases h; exact hd1
          · split at h
            cases h; exact hd1

theorem AttrR_dirty {ctx : Ctx} {resolveE : Resolver}
    (hres : ∀ e errs d r, resolveE e errs d = some r → r.2.2 = d)
    {id name : String} {errs : List JSErr} {d : Finset ℕ}
    {r : (PatOrStr ⊕ FluentValue) × List JSErr × Finset ℕ}
    (h : AttrR ctx resolveE id name errs d = some r) : r.2.2 = d := by
  rw [AttrR] at h
  split at h
  · cases h; rfl
  · split at h
    · cases h; rfl
    · split at h
      · exact absurd h (by simp)
      · next v errs2 d2 hent =>
          cases h
          have h3 := TypeEntryR_dirty hres hent
          exact h3

theorem VarR_dirty {ctx : Ctx} {resolveE : Resolver}
    (hres : ∀ e errs d r, resolveE e errs d = some r → r.2.2 = d)
    {id : String} {key : VKey} {errs : List JSErr} {d : Finset ℕ}
    {r : (Variant ⊕ FluentValue) × List JSErr × Finset ℕ}
    (h : VarR ctx resolveE id key errs d = some r) : r.2.2 = d := by
  rw [VarR] at h
  split at h
  · cases h; rfl
  · split at h
    · exact absurd h (by simp)
    · split at h
      · cases h; rfl
      · split at h
        · exact absurd h (by simp)
        · next v errs2 d2 hent =>
            cases h
            have h3 := TypeEntryR_dirty hres hent
            exact h3

theorem CallR_dirty {ctx : Ctx} {resolveE : Resolver}
    (hres : ∀ e errs d r, resolveE e errs d = some r → r.2.2 = d)
    {fn : String} {cargs : List CallArg} {errs : List JSErr} {d : Finset ℕ}
    {r : FluentValue × List JSErr × Finset ℕ}
    (h : CallR ctx resolveE fn cargs errs d = some r) : r.2.2 = d := by
  rw [CallR] at h
  split at h
  · cases h; rfl
  · split at h
    · exact absurd h (by simp)
    · next pos named errs2 d2 hargs =>
        have h3 := argsWalk_dirty hres hargs
        split at h
        · cases h; exact h3
        · cases h; exact h3

theorem TypeF_dirty {ctx : Ctx} {args : ArgBag} :
    ∀ (fuel : ℕ) (e : Expr) (errs : List JSErr) (d : Finset ℕ)
      (r : FluentValue × List JSErr × Finset ℕ),
      TypeF ctx args fuel e errs d = some r → r.2.2 = d := by
  intro fuel
  induction fuel with
  | zero => intro e errs d r h; exact absurd h (by simp [TypeF])
  | succ f ih =>
    intro e errs d r h
    cases e with
    | str s => rw [TypeF] at h; cases h; rfl
    | kw n => rw [TypeF] at h; cases h; rfl
    | num v => rw [TypeF] at h; cases h; rfl
    | ext name =>
      rw [TypeF] at h
      split at h
      cases h; rfl
    | func name =>
      rw [TypeF] at h
      split at h
      cases h; rfl
    | call fn cargs =>
      rw [TypeF] at h
      exact CallR_dirty ih h
    | ref name =>
      rw [TypeF] at h
      split at h
      · cases h; rfl
      · exact TypeEntryR_dirty ih h
    | attr id name =>
      rw [TypeF] at h
      split at h
      · exact absurd h (by simp)
      · next p errs1 d1 hattr =>
          have hd1 : d1 = d := AttrR_dirty ih hattr
          have h3 := TypePatR_dirty ih h
          exact h3.trans hd1
      · next v errs1 d1 hattr =>
          have hd1 : d1 = d := AttrR_dirty ih hattr
          split at h
          cases h
          exact hd1
    | varRef id key =>
      rw [TypeF] at h
      split at h
      · exact absurd h (by simp)
      · next vnt errs1 d1 hvar =>
          have hd1 : d1 = d := VarR_dirty ih hvar
          have h3 := TypePatR_dirty ih h
          exact h3.trans hd1
      · next v errs1 d1 hvar =>
          have hd1 : d1 = d := VarR_dirty ih hvar
          split at h
          cases h
          exact hd1
    | sel exp vars dflt =>
      rw [TypeF] at h
      split at h
      · exact absurd h (by simp)
      · next vnt errs1 d1 hsel =>
          have hd1 : d1 = d := SelectR_dirty ih hsel
          have h3 := TypePatR_dirty ih h
          exact h3.trans hd1
      · next v errs1 d1 hsel =>
          have hd1 : d1 = d := SelectR_dirty ih hsel
          split at h
          cases h
          exact hd1

/-- Statement apparatus: a step that threads the error list computes a fixed
result and appends a fixed suffix, independent of the errors already
present (the mutable error array is append-only and write-only). -/
def ErrsDelta {α : Type} (f : List JSErr → α × List JSErr) : Prop :=
  ∃ v δ, ∀ errs, f errs = (v, errs ++ δ)

/-- Statement apparatus: the `ErrsDelta` property for fallible steps that
also thread the dirty set. -/
def ODelta {α β : Type} (f : List JSErr → Option (α × List JSErr × β)) : Prop :=
  (∀ errs, f errs = Option.none) ∨
    (∃ v δ b, ∀ errs, f errs = some (v, errs ++ δ, b))

theorem placeChunk_delta (ctx : Ctx) (part : FluentValue) :
    ErrsDelta (placeChunk ctx part) := by
  refine ⟨(placeChunk ctx part []).1, (placeChunk ctx part []).2, ?_⟩
  intro errs
  cases part <;> simp [placeChunk]
  split <;> simp

theorem ExternalArgumentR_delta (args : ArgBag) (name : String) :
    ErrsDelta (ExternalArgumentR args name) := by
  refine ⟨(ExternalArgumentR args name []).1, (ExternalArgumentR args name []).2, ?_⟩
  intro errs
  cases args with
  | none => simp [ExternalArgumentR]
  | some bag =>
    simp only [ExternalArgumentR]
    split <;> simp
    split <;> simp

theorem FunctionReferenceR_delta (ctx : Ctx) (name : String) :
    ErrsDelta (FunctionReferenceR ctx name) := by
  refine ⟨(FunctionReferenceR ctx name []).1, (FunctionReferenceR ctx name []).2, ?_⟩
  intro errs
  simp only [FunctionReferenceR]
  split <;> simp
  split <;> simp

theorem MessageReferenceR_delta (ctx : Ctx) (name : String) :
    ErrsDelta (MessageReferenceR ctx name) := by
  refine ⟨(MessageReferenceR ctx name []).1, (MessageReferenceR ctx name []).2, ?_⟩
  intro errs
  simp only [MessageReferenceR]
  split <;> simp

theorem DefaultMemberR_delta (vars : List Variant) (dflt : ℕ) :
    ErrsDelta (DefaultMemberR vars dflt) := by
  refine ⟨(DefaultMemberR vars dflt []).1, (DefaultMemberR vars dflt []).2, ?_⟩
  intro errs
  simp only [DefaultMemberR]
  split <;> simp

theorem TypeOfValue_delta (ctx : Ctx) (v : FluentValue) :
    ErrsDelta (TypeOfValue ctx v) := by
  refine TypeOfValue.induct ctx
    (fun v _ => ErrsDelta (TypeOfValue ctx v))
    (fun l _ => ErrsDelta (patternVGo ctx l))
    ?_ ?_ ?_ ?_ ?_ ?_ ?_ v []
  · intro errs s
    exact ⟨.str s, [], fun es => by simp [TypeOfValue]⟩
  · intro errs h
    exact ⟨.none h, [], fun es => by simp [TypeOfValue]⟩
  · intro errs l res errs' hgo ih
    obtain ⟨r, δ, hr⟩ := ih
    exact ⟨.parts r, δ, fun es => by simp only [TypeOfValue]; rw [hr es]⟩
  · intro t errs h1 h2 h3
    refine ⟨.none Option.none, [.range "No value"], fun es => ?_⟩
    cases t with
    | str s => exact absurd rfl (h1 s)
    | none h => exact absurd rfl (h2 h)
    | parts l => exact absurd rfl (h3 l)
    | number a b => simp [TypeOfValue]
    | datetime a b => simp [TypeOfValue]
    | keyword k => simp [TypeOfValue]
    | func n => simp [TypeOfValue]
  · intro errs
    exact ⟨[], [], fun es => by simp [patternVGo]⟩
  · intro errs e rest s hs res errs' hgo ih
    obtain ⟨r, δ, hr⟩ := ih
    exact ⟨FluentValue.str s :: r, δ, fun es => by
      simp only [patternVGo, hs]; rw [hr es]⟩
  · intro errs e rest hs part errs1 htv res errs2 hpc res2 errs3 hgo ihe ihrest
    obtain ⟨p, δe, he⟩ := ihe
    obtain ⟨c, δc, hc⟩ := placeChunk_delta ctx p
    obtain ⟨r, δr, hr⟩ := ihrest
    refine ⟨isoWrap ctx c ++ r, δe ++ δc ++ δr, fun es => ?_⟩
    simp only [patternVGo, hs]
    rw [he es, hc, hr]
    simp [List.append_assoc]

theorem patternWalk_delta (ctx : Ctx) {resolveE : Resolver}
    (hres : ∀ e d, ODelta (fun errs => resolveE e errs d)) :
    ∀ (elems : List Expr) (d : Finset ℕ),
      ODelta (fun errs => patternWalk ctx resolveE elems errs d) := by
  intro elems
  induction elems with
  | nil =>
    intro d
    right
    exact ⟨[], [], d, fun errs => by simp [patternWalk]⟩
  | cons e rest ih =>
    intro d
    cases hse : isStrElem e with
    | some s =>
      rcases ih d with h | ⟨r, δ, b, hr⟩
      · left
        intro errs
        try simp only [] at h
        simp only [patternWalk, hse]
        rw [h errs]
      · right
        try simp only [] at hr
        refine ⟨FluentValue.str s :: r, δ, b, fun errs => ?_⟩
        simp only [patternWalk, hse]
        rw [hr errs]
    | none =>
      rcases hres e d with h | ⟨v, δ1, d1, hv⟩
      · left
        intro errs
        try simp only [] at h
        simp only [patternWalk, hse]
        rw [h errs]
      · simp only [] at hv
        obtain ⟨c, δc, hc⟩ := placeChunk_delta ctx v
        rcases ih d1 with h | ⟨r, δr, b, hr⟩
        · left
          intro errs
          try simp only [] at h
          simp only [patternWalk, hse]
          rw [hv errs]
          simp only [hc]
          rw [h ((errs ++ δ1) ++ δc)]
        · right
          try simp only [] at hr
          refine ⟨isoWrap ctx c ++ r, δ1 ++ δc ++ δr, b, fun errs => ?_⟩
          simp only [patternWalk, hse]
          rw [hv errs]
          simp only [hc]
          rw [hr ((errs ++ δ1) ++ δc)]
          simp [List.append_assoc]

theorem argsWalk_delta {resolveE : Resolver}
    (hres : ∀ e d, ODelta (fun errs => resolveE e errs d)) :
    ∀ (cargs : List CallArg) (d : Finset ℕ),
      (∀ errs, argsWalk resolveE cargs errs d = Option.none) ∨
      (∃ pos named δ b, ∀ errs,
        argsWalk resolveE cargs errs d = some (pos, named, errs ++ δ, b)) := by
  intro cargs
  induction cargs with
  | nil =>
    intro d
    right
    exact ⟨[], [], [], d, fun errs => by simp [argsWalk]⟩
  | cons a rest ih =>
    intro d
    cases a with
    | pos e =>
      rcases hres e d with h | ⟨v, δ1, d1, hv⟩
      · left
        intro errs
        try simp only [] at h
        simp only [argsWalk]
        rw [h errs]
      · simp only [] at hv
        rcases ih d1 with h | ⟨pos, named, δr, b, hr⟩
        · left
          intro errs
          try simp only [] at h
          simp only [argsWalk]
          rw [hv errs]
          simp only []
          rw [h (errs ++ δ1)]
        · right
          try simp only [] at hr
          refine ⟨v :: pos, named, δ1 ++ δr, b, fun errs => ?_⟩
          simp only [argsWalk]
          rw [hv errs]
          simp only []
          rw [hr (errs ++ δ1)]
          simp [List.append_assoc]
    | named n e =>
      rcases hres e d with h | ⟨v, δ1, d1, hv⟩
      · left
        intro errs
        try simp only [] at h
        simp only [argsWalk]
        rw [h errs]
      · simp only [] at hv
        rcases ih d1 with h | ⟨pos, named, δr, b, hr⟩
        · left
          intro errs
          try simp only [] at h
          simp only [argsWalk]
          rw [hv errs]
          simp only []
          rw [h (errs ++ δ1)]
        · right
          try simp only [] at hr
          refine ⟨pos, (n, v) :: named, δ1 ++ δr, b, fun errs => ?_⟩
          simp only [argsWalk]
          rw [hv errs]
          simp only []
          rw [hr (errs ++ δ1)]
          simp [List.append_assoc]

theorem PatternR_delta (ctx : Ctx) {resolveE : Resolver}
    (hres : ∀ e d, ODelta (fun errs => resolveE e errs d))
    (pid : ℕ) (pelems : List Expr) (d : Finset ℕ) :
    ODelta (fun errs => PatternR ctx resolveE pid pelems errs d) := by
  by_cases hpid : pid ∈ d
  · right
    exact ⟨.none Option.none, [.range "Cyclic reference"], d, fun errs => by
      simp [PatternR, hpid]⟩
  · rcases patternWalk_delta ctx hres pelems (insert pid d) with h | ⟨res, δ, b, hw⟩
    · left
      intro errs
      try simp only [] at h
      simp only [PatternR, hpid, if_false]
      rw [h errs]
    · right
      try simp only [] at hw
      refine ⟨.parts res, δ, b.erase pid, fun errs => ?_⟩
      simp only [PatternR, hpid, if_false]
      rw [hw errs]

theorem TypePatR_delta (ctx : Ctx) {resolveE : Resolver}
    (hres : ∀ e d, ODelta (fun errs => resolveE e errs d))
    (p : PatOrStr) (d : Finset ℕ) :
    ODelta (fun errs => TypePatR ctx resolveE p errs d) := by
  cases p with
  | str s =>
    right
    exact ⟨.str s, [], d, fun errs => by simp [TypePatR]⟩
  | pat pid pelems => exact PatternR_delta ctx hres pid pelems d

theorem TypeEntryR_delta (ctx : Ctx) {resolveE : Resolver}
    (hres : ∀ e d, ODelta (fun errs => resolveE e errs d))
    (ent : Entry) (d : Finset ℕ) :
    ODelta (fun errs => TypeEntryR ctx resolveE ent errs d) := by
  cases ent with
  | bare p => exact TypePatR_delta ctx hres p d
  | msg m =>
    cases hval : m.val with
    | none =>
      right
      exact ⟨.none Option.none, [.range "No value"], d, fun errs => by
        simp [TypeEntryR, hval]⟩
    | some p =>
      rcases TypePatR_delta ctx hres p d with h | ⟨v, δ, b, hp⟩
      · left
        intro errs
        try simp only [] at h
        simp only [TypeEntryR, hval]
        exact h errs
      · right
        try simp only [] at hp
        exact ⟨v, δ, b, fun errs => by simp only [TypeEntryR, hval]; exact hp errs⟩

theorem SelectR_delta (ctx : Ctx) {resolveE : Resolver}
    (hres : ∀ e d, ODelta (fun errs => resolveE e errs d))
    (exp : Option Expr) (vars : List Variant) (dflt : ℕ) (d : Finset ℕ) :
    (∀ errs, SelectR ctx resolveE exp vars dflt errs d = Option.none) ∨
    (∃ v δ b, ∀ errs,
      SelectR ctx resolveE exp vars dflt errs d = some (v, errs ++ δ, b)) := by
  obtain ⟨dv, dδ, hdm⟩ := DefaultMemberR_delta vars dflt
  cases exp with
  | none =>
    right
    exact ⟨dv, dδ, d, fun errs => by
      simp only [SelectR.eq_def]
      rw [hdm errs]⟩
  | some sexp =>
    rcases hres sexp d with h | ⟨v, δ1, d1, hv⟩
    · left
      intro errs
      try simp only [] at h
      simp only [SelectR.eq_def]
      rw [h errs]
    · try simp only [] at hv
      right
      cases v with
      | none hint =>
        refine ⟨dv, δ1 ++ dδ, d1, fun errs => ?_⟩
        simp only [SelectR.eq_def]
        rw [hv errs]
        simp only []
        rw [hdm (errs ++ δ1)]
        simp [List.append_assoc]
      | str s =>
        cases hf : findMatchingVariant ctx vars (.str s) with
        | some vnt =>
          refine ⟨.inl vnt, δ1, d1, fun errs => ?_⟩
          simp only [SelectR.eq_def]
          rw [hv errs]
          simp [hf]
        | none =>
          refine ⟨dv, δ1 ++ dδ, d1, fun errs => ?_⟩
          simp only [SelectR.eq_def]
          rw [hv errs]
          simp only [hf]
          rw [hdm (errs ++ δ1)]
          simp [List.append_assoc]
      | number a b =>
        cases hf : findMatchingVariant ctx vars (.number a b) with
        | some vnt =>
          refine ⟨.inl vnt, δ1, d1, fun errs => ?_⟩
          simp only [SelectR.eq_def]
          rw [hv errs]
          simp [hf]
        | none =>
          refine ⟨dv, δ1 ++ dδ, d1, fun errs => ?_⟩
          simp only [SelectR.eq_def]
          rw [hv errs]
          simp only [hf]
          rw [hdm (errs ++ δ1)]
          simp [List.append_assoc]
      | datetime a b =>
        cases hf : findMatchingVariant ctx vars (.datetime a b) with
        | some vnt =>
          refine ⟨.inl vnt, δ1, d1, fun errs => ?_⟩
          simp only [SelectR.eq_def]
          rw [hv errs]
          simp [hf]
        | none =>
          refine ⟨dv, δ1 ++ dδ, d1, fun errs => ?_⟩
          simp only [SelectR.eq_def]
          rw [hv errs]
          simp only [hf]
          rw [hdm (errs ++ δ1)]
          simp [List.append_assoc]
      | keyword k =>
        cases hf : findMatchingVariant ctx vars (.keyword k) with
        | some vnt =>
          refine ⟨.inl vnt, δ1, d1, fun errs => ?_⟩
          simp only [SelectR.eq_def]
          rw [hv errs]
          simp [hf]
        | none =>
          refine ⟨dv, δ1 ++ dδ, d1, fun errs => ?_⟩
          simp only [SelectR.eq_def]
          rw [hv errs]
          simp only [hf]
          rw [hdm (errs ++ δ1)]
          simp [List.append_assoc]
      | func n =>
        cases hf : findMatchingVariant ctx vars (.func n) with
        | some vnt =>
          refine ⟨.inl vnt, δ1, d1, fun errs => ?_⟩
          simp only [SelectR.eq_def]
          rw [hv errs]
          simp [hf]
        | none =>
          refine ⟨dv, δ1 ++ dδ, d1, fun errs => ?_⟩
          simp only [SelectR.eq_def]
          rw [hv errs]
          simp only [hf]
          rw [hdm (errs ++ δ1)]
          simp [List.append_assoc]
      | parts l =>
        cases hf : findMatchingVariant ctx vars (.parts l) with
        | some vnt =>
          refine ⟨.inl vnt, δ1, d1, fun errs => ?_⟩
          simp only [SelectR.eq_def]
          rw [hv errs]
          simp [hf]
        | none =>
          refine ⟨dv, δ1 ++ dδ, d1, fun errs => ?_⟩
          simp only [SelectR.eq_def]
          rw [hv errs]
          simp only [hf]
          rw [hdm (errs ++ δ1)]
          simp [List.append_assoc]

theorem AttrR_delta (ctx : Ctx) {resolveE : Resolver}
    (hres : ∀ e d, ODelta (fun errs => resolveE e errs d))
    (id name : String) (d : Finset ℕ) :
    (∀ errs, AttrR ctx resolveE id name errs d = Option.none) ∨
    (∃ v δ b, ∀ errs, AttrR ctx resolveE id name errs d = some (v, errs ++ δ, b)) := by
  obtain ⟨mv, mδ, hm⟩ := MessageReferenceR_delta ctx id
  cases mv with
  | inr v =>
    right
    exact ⟨.inr v, mδ, d, fun errs => by
      simp only [AttrR]
      rw [hm errs]⟩
  | inl m =>
    cases hattr : entryAttr m name with
    | some p =>
      right
      exact ⟨.inl p, mδ, d, fun errs => by
        simp only [AttrR]
        rw [hm errs]
        simp [hattr]⟩
    | none =>
      rcases TypeEntryR_delta ctx hres m d with h | ⟨v, δ, b, he⟩
      · left
        intro errs
        try simp only [] at h
        simp only [AttrR]
        rw [hm errs]
        simp only [hattr]
        rw [h (errs ++ mδ ++ [JSErr.reference ("Unknown attribute: " ++ name)])]
      · try simp only [] at he
        right
        refine ⟨.inr v, mδ ++ [.reference ("Unknown attribute: " ++ name)] ++ δ, b,
          fun errs => ?_⟩
        simp only [AttrR]
        rw [hm errs]
        simp only [hattr]
        rw [he (errs ++ mδ ++ [JSErr.reference ("Unknown attribute: " ++ name)])]
        simp [List.append_assoc]

theorem VarR_delta (ctx : Ctx) {resolveE : Resolver}
    (hres : ∀ e d, ODelta (fun errs => resolveE e errs d))
    (id : String) (key : VKey) (d : Finset ℕ) :
    (∀ errs, VarR ctx resolveE id key errs d = Option.none) ∨
    (∃ v δ b, ∀ errs, VarR ctx resolveE id key errs d = some (v, errs ++ δ, b)) := by
  obtain ⟨mv, mδ, hm⟩ := MessageReferenceR_delta ctx id
  cases mv with
  | inr v =>
    right
    exact ⟨.inr v, mδ, d, fun errs => by
      simp only [VarR]
      rw [hm errs]⟩
  | inl m =>
    cases hvt : isVariantListR (entryVal m) with
    | none =>
      left
      intro errs
      simp only [VarR]
      rw [hm errs]
      simp [hvt]
    | some bvl =>
      cases hvl : (variantListVars (entryVal m)).bind
          (findVariantMatchingKeyword ctx (TypeVKey key)) with
      | some vnt =>
        right
        exact ⟨.inl vnt, mδ, d, fun errs => by
          simp only [VarR]
          rw [hm errs]
          simp [hvt, hvl]⟩
      | none =>
        rcases TypeEntryR_delta ctx hres m d with h | ⟨v, δ, b, he⟩
        · left
          intro errs
          try simp only [] at h
          simp only [VarR]
          rw [hm errs]
          simp only [hvt]
          simp only [hvl]
          rw [h (errs ++ mδ ++
            [JSErr.reference ("Unknown variant: " ++ (TypeVKey key).valueOf ctx)])]
        · try simp only [] at he
          right
          refine ⟨.inr v,
            mδ ++ [.reference ("Unknown variant: " ++ (TypeVKey key).valueOf ctx)] ++ δ,
            b, fun errs => ?_⟩
          simp only [VarR]
          rw [hm errs]
          simp only [hvt]
          simp only [hvl]
          rw [he (errs ++ mδ ++
            [JSErr.reference ("Unknown variant: " ++ (TypeVKey key).valueOf ctx)])]
          simp [List.append_assoc]

theorem CallR_delta (ctx : Ctx) {resolveE : Resolver}
    (hres : ∀ e d, ODelta (fun errs => resolveE e errs d))
    (fn : String) (cargs : List CallArg) (d : Finset ℕ) :
    ODelta (fun errs => CallR ctx resolveE fn cargs errs d) := by
  obtain ⟨fv, fδ, hf⟩ := FunctionReferenceR_delta ctx fn
  cases fv with
  | none h =>
    right
    exact ⟨.none h, fδ, d, fun errs => by
      simp only [CallR]
      rw [hf errs]⟩
  | func n =>
    rcases argsWalk_delta hres cargs d with h | ⟨pos, named, δ, b, hw⟩
    · left
      intro errs
      try simp only [] at h
      simp only [CallR]
      rw [hf errs]
      simp only []
      rw [h (errs ++ fδ)]
    · try simp only [] at hw
      right
      cases hlc : lookupCallable ctx fn with
      | some f =>
        refine ⟨f pos named, fδ ++ δ, b, fun errs => ?_⟩
        simp only [CallR]
        rw [hf errs]
        simp only []
        rw [hw (errs ++ fδ)]
        simp [hlc, List.append_assoc]
      | none =>
        refine ⟨.none Option.none, fδ ++ δ, b, fun errs => ?_⟩
        simp only [CallR]
        rw [hf errs]
        simp only []
        rw [hw (errs ++ fδ)]
        simp [hlc, List.append_assoc]
  | str s =>
    rcases argsWalk_delta hres cargs d with h | ⟨pos, named, δ, b, hw⟩
    · left
      intro errs
      try simp only [] at h
      simp only [CallR]
      rw [hf errs]
      simp only []
      rw [h (errs ++ fδ)]
    · try simp only [] at hw
      right
      cases hlc : lookupCallable ctx fn with
      | some f =>
        refine ⟨f pos named, fδ ++ δ, b, fun errs => ?_⟩
        simp only [CallR]
        rw [hf errs]
        simp only []
        rw [hw (errs ++ fδ)]
        simp [hlc, List.append_assoc]
      | none =>
        refine ⟨.none Option.none, fδ ++ δ, b, fun errs => ?_⟩
        simp only [CallR]
        rw [hf errs]
        simp only []
        rw [hw (errs ++ fδ)]
        simp [hlc, List.append_assoc]
  | number a bb =>
    rcases argsWalk_delta hres cargs d with h | ⟨pos, named, δ, b, hw⟩
    · left
      intro errs
      try simp only [] at h
      simp only [CallR]
      rw [hf errs]
      simp only []
      rw [h (errs ++ fδ)]
    · try simp only [] at hw
      right
      cases hlc : lookupCallable ctx fn with
      | some f =>
        refine ⟨f pos named, fδ ++ δ, b, fun errs => ?_⟩
        simp only [CallR]
        rw [hf errs]
        simp only []
        rw [hw (errs ++ fδ)]
        simp [hlc, List.append_assoc]
      | none =>
        refine ⟨.none Option.none, fδ ++ δ, b, fun errs => ?_⟩
        simp only [CallR]
        rw [hf errs]
        simp only []
        rw [hw (errs ++ fδ)]
        simp [hlc, List.append_assoc]
  | datetime a bb =>
    rcases argsWalk_delta hres cargs d with h | ⟨pos, named, δ, b, hw⟩
    · left
      intro errs
      try simp only [] at h
      simp only [CallR]
      rw [hf errs]
      simp only []
      rw [h (errs ++ fδ)]
    · try simp only [] at hw
      right
      cases hlc : lookupCallable ctx fn with
      | some f =>
        refine ⟨f pos named, fδ ++ δ, b, fun errs => ?_⟩
        simp only [CallR]
        rw [hf errs]
        simp only []
        rw [hw (errs ++ fδ)]
        simp [hlc, List.append_assoc]
      | none =>
        refine ⟨.none Option.none, fδ ++ δ, b, fun errs => ?_⟩
        simp only [CallR]
        rw [hf errs]
        simp only []
        rw [hw (errs ++ fδ)]
        simp [hlc, List.append_assoc]
  | keyword k =>
    rcases argsWalk_delta hres cargs d with h | ⟨pos, named, δ, b, hw⟩
    · left
      intro errs
      try simp only [] at h
      simp only [CallR]
      rw [hf errs]
      simp only []
      rw [h (errs ++ fδ)]
    · try simp only [] at hw
      right
      cases hlc : lookupCallable ctx fn with
      | some f =>
        refine ⟨f pos named, fδ ++ δ, b, fun errs => ?_⟩
        simp only [CallR]
        rw [hf errs]
        simp only []
        rw [hw (errs ++ fδ)]
        simp [hlc, List.append_assoc]
      | none =>
        refine ⟨.none Option.none, fδ ++ δ, b, fun errs => ?_⟩
        simp only [CallR]
        rw [hf errs]
        simp only []
        rw [hw (errs ++ fδ)]
        simp [hlc, List.append_assoc]
  | parts l =>
    rcases argsWalk_delta hres cargs d with h | ⟨pos, named, δ, b, hw⟩
    · left
      intro errs
      try simp only [] at h
      simp only [CallR]
      rw [hf errs]
      simp only []
      rw [h (errs ++ fδ)]
    · try simp only [] at hw
      right
      cases hlc : lookupCallable ctx fn with
      | some f =>
        refine ⟨f pos named, fδ ++ δ, b, fun errs => ?_⟩
        simp only [CallR]
        rw [hf errs]
        simp only []
        rw [hw (errs ++ fδ)]
        simp [hlc, List.append_assoc]
      | none =>
        refine ⟨.none Option.none, fδ ++ δ, b, fun errs => ?_⟩
        simp only [CallR]
        rw [hf errs]
        simp only []
        rw [hw (errs ++ fδ)]
        simp [hlc, List.append_assoc]

theorem TypeF_delta (ctx : Ctx) (args : ArgBag) :
    ∀ (fuel : ℕ) (e : Expr) (d : Finset ℕ),
      ODelta (fun errs => TypeF ctx args fuel e errs d) := by
  intro fuel
  induction fuel with
  | zero =>
    intro e d
    left
    intro errs
    simp [TypeF]
  | succ f ih =>
    intro e d
    cases e with
    | str s =>
      right
      exact ⟨.str s, [], d, fun errs => by simp [TypeF]⟩
    | kw n =>
      right
      exact ⟨.keyword n, [], d, fun errs => by simp [TypeF]⟩
    | num v =>
      right
      exact ⟨.number (parseJSNumber v) Option.none, [], d, fun errs => by
        simp [TypeF]⟩
    | ext name =>
      obtain ⟨v, δ, he⟩ := ExternalArgumentR_delta args name
      right
      exact ⟨v, δ, d, fun errs => by simp only [TypeF]; rw [he errs]⟩
    | func name =>
      obtain ⟨v, δ, he⟩ := FunctionReferenceR_delta ctx name
      right
      exact ⟨v, δ, d, fun errs => by simp only [TypeF]; rw [he errs]⟩
    | call fn cargs =>
      exact CallR_delta ctx ih fn cargs d
    | ref name =>
      obtain ⟨mv, mδ, hm⟩ := MessageReferenceR_delta ctx name
      cases mv with
      | inr v =>
        right
        exact ⟨v, mδ, d, fun errs => by simp only [TypeF]; rw [hm errs]⟩
      | inl m =>
        rcases TypeEntryR_delta ctx ih m d with h | ⟨v, δ, b, he⟩
        · left
          intro errs
          try simp only [] at h
          simp only [TypeF]
          rw [hm errs]
          simp only []
          rw [h (errs ++ mδ)]
        · try simp only [] at he
          right
          refine ⟨v, mδ ++ δ, b, fun errs => ?_⟩
          simp only [TypeF]
          rw [hm errs]
          simp only []
          rw [he (errs ++ mδ)]
          simp [List.append_assoc]
    | attr id name =>
      rcases AttrR_delta ctx ih id name d with h | ⟨v, δ, b, ha⟩
      · left
        intro errs
        try simp only [] at h
        simp only [TypeF]
        rw [h errs]
      · try simp only [] at ha
        cases v with
        | inl p =>
          rcases TypePatR_delta ctx ih p b with h2 | ⟨v2, δ2, b2, hp⟩
          · left
            intro errs
            try simp only [] at h2
            simp only [TypeF]
            rw [ha errs]
            simp only []
            rw [h2 (errs ++ δ)]
          · try simp only [] at hp
            right
            refine ⟨v2, δ ++ δ2, b2, fun errs => ?_⟩
            simp only [TypeF]
            rw [ha errs]
            simp only []
            rw [hp (errs ++ δ)]
            simp [List.append_assoc]
        | inr v =>
          obtain ⟨v2, δ2, hv⟩ := TypeOfValue_delta ctx v
          right
          refine ⟨v2, δ ++ δ2, b, fun errs => ?_⟩
          simp only [TypeF]
          rw [ha errs]
          simp only []
          rw [hv (errs ++ δ)]
          simp [List.append_assoc]
    | varRef id key =>
      rcases VarR_delta ctx ih id key d with h | ⟨v, δ, b, ha⟩
      · left
        intro errs
        try simp only [] at h
        simp only [TypeF]
        rw [h errs]
      · try simp only [] at ha
        cases v with
        | inl vnt =>
          rcases TypePatR_delta ctx ih vnt.val b with h2 | ⟨v2, δ2, b2, hp⟩
          · left
            intro errs
            try simp only [] at h2
            simp only [TypeF]
            rw [ha errs]
            simp only []
            rw [h2 (errs ++ δ)]
          · try simp only [] at hp
            right
            refine ⟨v2, δ ++ δ2, b2, fun errs => ?_⟩
            simp only [TypeF]
            rw [ha errs]
            simp only []
            rw [hp (errs ++ δ)]
            simp [List.append_assoc]
        | inr v =>
          obtain ⟨v2, δ2, hv⟩ := TypeOfValue_delta ctx v
          right
          refine ⟨v2, δ ++ δ2, b, fun errs => ?_⟩
          simp only [TypeF]
          rw [ha errs]
          simp only []
          rw [hv (errs ++ δ)]
          simp [List.append_assoc]
    | sel exp vars dflt =>
      rcases SelectR_delta ctx ih exp vars dflt d with h | ⟨v, δ, b, ha⟩
      · left
        intro errs
        try simp only [] at h
        simp only [TypeF]
        rw [h errs]
      · try simp only [] at ha
        cases v with
        | inl vnt =>
          rcases TypePatR_delta ctx ih vnt.val b with h2 | ⟨v2, δ2, b2, hp⟩
          · left
            intro errs
            try simp only [] at h2
            simp only [TypeF]
            rw [ha errs]
            simp only []
            rw [h2 (errs ++ δ)]
          · try simp only [] at hp
            right
            refine ⟨v2, δ ++ δ2, b2, fun errs => ?_⟩
            simp only [TypeF]
            rw [ha errs]
            simp only []
            rw [hp (errs ++ δ)]
            simp [List.append_assoc]
        | inr v =>
          obtain ⟨v2, δ2, hv⟩ := TypeOfValue_delta ctx v
          right
          refine ⟨v2, δ ++ δ2, b, fun errs => ?_⟩
          simp only [TypeF]
          rw [ha errs]
          simp only []
          rw [hv (errs ++ δ)]
          simp [List.append_assoc]

theorem resolveF_delta (ctx : Ctx) (args : ArgBag) (fuel : ℕ) (root : Entry) :
    (∀ errs, resolveF ctx args fuel root errs = Option.none) ∨
    (∃ v δ, ∀ errs, resolveF ctx args fuel root errs = some (v, errs ++ δ)) := by
  rcases TypeEntryR_delta ctx (TypeF_delta ctx args fuel) root ∅ with h | ⟨v, δ, b, he⟩
  · left
    intro errs
    try simp only [] at h
    simp only [resolveF]
    rw [h errs]
  · try simp only [] at he
    right
    exact ⟨v, δ, fun errs => by simp only [resolveF]; rw [he errs]⟩

theorem formatF_delta (ctx : Ctx) (args : ArgBag) (fuel : ℕ) (root : Entry) :
    (∀ errs, formatF ctx args fuel root errs = Option.none) ∨
    (∃ v δ, ∀ errs, formatF ctx args fuel root errs = some (v, errs ++ δ)) := by
  rcases hroot : root with p | m
  · rcases resolveF_delta ctx args fuel (.bare p) with h | ⟨v, δ, hr⟩
    · left
      intro errs
      simp only [formatF]
      rw [h errs]
    · right
      exact ⟨some (joinParts ctx v), δ, fun errs => by
        simp only [formatF]
        rw [hr errs]⟩
  · rcases hval : m.val with _ | p
    · right
      refine ⟨Option.none, [], fun errs => ?_⟩
      obtain ⟨mval, mattrs⟩ := m
      simp only at hval
      subst hval
      simp [formatF]
    · rcases resolveF_delta ctx args fuel (.msg m) with h | ⟨v, δ, hr⟩
      · left
        intro errs
        obtain ⟨mval, mattrs⟩ := m
        simp only at hval
        subst hval
        simp only [formatF]
        rw [h errs]
      · right
        refine ⟨some (joinParts ctx v), δ, fun errs => ?_⟩
        obtain ⟨mval, mattrs⟩ := m
        simp only at hval
        subst hval
        simp only [formatF]
        rw [hr errs]

mutual
/-- Structural size of an expression, the second component of the
termination measure for the resolver. -/
def sizeE : Expr → ℕ
  | .str _ => 1
  | .kw _ => 1
  | .num _ => 1
  | .ext _ => 1
  | .func _ => 1
  | .call _ cargs => 1 + sizeArgs cargs
  | .ref _ => 1
  | .attr _ _ => 1
  | .varRef _ _ => 1
  | .sel exp vars _ => 1 + sizeOE exp + sizeVars vars
/-- Structural size of an optional selector. -/
def sizeOE : Option Expr → ℕ
  | Option.none => 0
  | some e => sizeE e
/-- Structural size of a call-argument list. -/
def sizeArgs : List CallArg → ℕ
  | [] => 0
  | a :: rest => sizeArg a + sizeArgs rest
/-- Structural size of a call argument. -/
def sizeArg : CallArg → ℕ
  | .pos e => 1 + sizeE e
  | .named _ e => 1 + sizeE e
/-- Structural size of a variant list. -/
def sizeVars : List Variant → ℕ
  | [] => 0
  | v :: rest => sizeVar v + sizeVars rest
/-- Structural size of a variant. -/
def sizeVar : Variant → ℕ
  | .mk _ val => 1 + sizePS val
/-- Structural size of a pattern-or-string value. -/
def sizePS : PatOrStr → ℕ
  | .str _ => 1
  | .pat _ elems => 1 + sizeElems elems
/-- Structural size of a pattern's element list. -/
def sizeElems : List Expr → ℕ
  | [] => 0
  | e :: rest => sizeE e + sizeElems rest
end

/-- Structural size of an optional message value. -/
def sizeOPS : Option PatOrStr → ℕ
  | Option.none => 0
  | some p => sizePS p

/-- Structural size of an attribute map. -/
def sizeAttrs : List (String × PatOrStr) → ℕ
  | [] => 0
  | a :: rest => sizePS a.2 + sizeAttrs rest

/-- Structural size of a message entry. -/
def sizeEntry : Entry → ℕ
  | .bare p => 1 + sizePS p
  | .msg m => 1 + sizeOPS m.val + sizeAttrs m.attrs

/-- Structural size of the whole message store. -/
def sizeCtx : List (String × Entry) → ℕ
  | [] => 0
  | a :: rest => sizeEntry a.2 + sizeCtx rest

mutual
/-- The pattern identities occurring in an expression: the universe the
dirty set draws from, and the first component of the termination measure. -/
def pidsE : Expr → Finset ℕ
  | .call _ cargs => pidsArgs cargs
  | .sel exp vars _ => pidsOE exp ∪ pidsVars vars
  | _ => ∅
/-- Pattern identities of an optional selector. -/
def pidsOE : Option Expr → Finset ℕ
  | Option.none => ∅
  | some e => pidsE e
/-- Pattern identities of a call-argument list. -/
def pidsArgs : List CallArg → Finset ℕ
  | [] => ∅
  | a :: rest => pidsArg a ∪ pidsArgs rest
/-- Pattern identities of a call argument. -/
def pidsArg : CallArg → Finset ℕ
  | .pos e => pidsE e
  | .named _ e => pidsE e
/-- Pattern identities of a variant list. -/
def pidsVars : List Variant → Finset ℕ
  | [] => ∅
  | v :: rest => pidsVar v ∪ pidsVars rest
/-- Pattern identities of a variant. -/
def pidsVar : Variant → Finset ℕ
  | .mk _ val => pidsPS val
/-- Pattern identities of a pattern-or-string value. -/
def pidsPS : PatOrStr → Finset ℕ
  | .str _ => ∅
  | .pat pid elems => insert pid (pidsElems elems)
/-- Pattern identities of a pattern's element list. -/
def pidsElems : List Expr → Finset ℕ
  | [] => ∅
  | e :: rest => pidsE e ∪ pidsElems rest
end

/-- Pattern identities of an optional message value. -/
def pidsOPS : Option PatOrStr → Finset ℕ
  | Option.none => ∅
  | some p => pidsPS p

/-- Pattern identities of an attribute map. -/
def pidsAttrs : List (String × PatOrStr) → Finset ℕ
  | [] => ∅
  | a :: rest => pidsPS a.2 ∪ pidsAttrs rest

/-- Pattern identities of a message entry. -/
def pidsEntry : Entry → Finset ℕ
  | .bare p => pidsPS p
  | .msg m => pidsOPS m.val ∪ pidsAttrs m.attrs

/-- Pattern identities of the whole message store. -/
def pidsCtx : List (String × Entry) → Finset ℕ
  | [] => ∅
  | a :: rest => pidsEntry a.2 ∪ pidsCtx rest

theorem sizeE_pos : ∀ e : Expr, 1 ≤ sizeE e := by
  intro e
  cases e <;> (simp only [sizeE]; omega)

theorem lookup_sizeEntry :
    ∀ (l : List (String × Entry)) (name : String) (ent : Entry),
      l.lookup name = some ent → sizeEntry ent ≤ sizeCtx l := by
  intro l
  induction l with
  | nil => intro name ent h; simp [List.lookup] at h
  | cons a rest ih =>
    intro name ent h
    rw [List.lookup] at h
    split at h
    · cases h
      simp [sizeCtx]
    · have := ih name ent h
      simp [sizeCtx]
      omega

theorem lookup_pidsEntry :
    ∀ (l : List (String × Entry)) (name : String) (ent : Entry),
      l.lookup name = some ent → pidsEntry ent ⊆ pidsCtx l := by
  intro l
  induction l with
  | nil => intro name ent h; simp [List.lookup] at h
  | cons a rest ih =>
    intro name ent h
    rw [List.lookup] at h
    split at h
    · cases h
      simp only [pidsCtx]
      exact Finset.subset_union_left
    · have := ih name ent h
      simp only [pidsCtx]
      exact this.trans Finset.subset_union_right

theorem lookup_sizeAttrs :
    ∀ (l : List (String × PatOrStr)) (name : String) (p : PatOrStr),
      l.lookup name = some p → sizePS p ≤ sizeAttrs l := by
  intro l
  induction l with
  | nil => intro name p h; simp [List.lookup] at h
  | cons a rest ih =>
    intro name p h
    rw [List.lookup] at h
    split at h
    · cases h
      simp [sizeAttrs]
    · have := ih name p h
      simp [sizeAttrs]
      omega

theorem lookup_pidsAttrs :
    ∀ (l : List (String × PatOrStr)) (name : String) (p : PatOrStr),
      l.lookup name = some p → pidsPS p ⊆ pidsAttrs l := by
  intro l
  induction l with
  | nil => intro name p h; simp [List.lookup] at h
  | cons a rest ih =>
    intro name p h
    rw [List.lookup] at h
    split at h
    · cases h
      simp only [pidsAttrs]
      exact Finset.subset_union_left
    · have := ih name p h
      simp only [pidsAttrs]
      exact this.trans Finset.subset_union_right

theorem mem_sizeVar : ∀ {vars : List Variant} {v : Variant},
    v ∈ vars → sizeVar v ≤ sizeVars vars := by
  intro vars
  induction vars with
  | nil => intro v h; simp at h
  | cons a rest ih =>
    intro v h
    rcases List.mem_cons.mp h with h | h
    · subst h; simp [sizeVars]
    · have := ih h
      simp [sizeVars]
      omega

theorem mem_pidsVar : ∀ {vars : List Variant} {v : Variant},
    v ∈ vars → pidsVar v ⊆ pidsVars vars := by
  intro vars
  induction vars with
  | nil => intro v h; simp at h
  | cons a rest ih =>
    intro v h
    rcases List.mem_cons.mp h with h | h
    · subst h
      simp only [pidsVars]
      exact Finset.subset_union_left
    · have := ih h
      simp only [pidsVars]
      exact this.trans Finset.subset_union_right

theorem mem_sizeE_elems : ∀ {elems : List Expr} {e : Expr},
    e ∈ elems → sizeE e ≤ sizeElems elems := by
  intro elems
  induction elems with
  | nil => intro e h; simp at h
  | cons a rest ih =>
    intro e h
    rcases List.mem_cons.mp h with h | h
    · subst h; simp [sizeElems]
    · have := ih h
      simp [sizeElems]
      omega

theorem mem_pidsE_elems : ∀ {elems : List Expr} {e : Expr},
    e ∈ elems → pidsE e ⊆ pidsElems elems := by
  intro elems
  induction elems with
  | nil => intro e h; simp at h
  | cons a rest ih =>
    intro e h
    rcases List.mem_cons.mp h with h | h
    · subst h
      simp only [pidsElems]
      exact Finset.subset_union_left
    · have := ih h
      simp only [pidsElems]
      exact this.trans Finset.subset_union_right

theorem mem_sizeArg : ∀ {cargs : List CallArg} {a : CallArg},
    a ∈ cargs → sizeArg a ≤ sizeArgs cargs := by
  intro cargs
  induction cargs with
  | nil => intro a h; simp at h
  | cons b rest ih =>
    intro a h
    rcases List.mem_cons.mp h with h | h
    · subst h; simp [sizeArgs]
    · have := ih h
      simp [sizeArgs]
      omega

theorem mem_pidsArg : ∀ {cargs : List CallArg} {a : CallArg},
    a ∈ cargs → pidsArg a ⊆ pidsArgs cargs := by
  intro cargs
  induction cargs with
  | nil => intro a h; simp at h
  | cons b rest ih =>
    intro a h
    rcases List.mem_cons.mp h with h | h
    · subst h
      simp only [pidsArgs]
      exact Finset.subset_union_left
    · have := ih h
      simp only [pidsArgs]
      exact this.trans Finset.subset_union_right

theorem patternWalk_isSome (ctx : Ctx) {resolveE : Resolver}
    (hpres : ∀ e errs d r, resolveE e errs d = some r → r.2.2 = d) :
    ∀ {elems : List Expr} {d : Finset ℕ},
      (∀ e ∈ elems, ∀ errs, (resolveE e errs d).isSome) →
      ∀ errs, (patternWalk ctx resolveE elems errs d).isSome := by
  intro elems
  induction elems with
  | nil =>
    intro d hall errs
    simp [patternWalk]
  | cons e rest ih =>
    intro d hall errs
    have hallrest : ∀ e ∈ rest, ∀ errs, (resolveE e errs d).isSome :=
      fun e he errs => hall e (List.mem_cons_of_mem _ he) errs
    cases hse : isStrElem e with
    | some s =>
      obtain ⟨⟨r, errs', d'⟩, hw⟩ :=
        Option.isSome_iff_exists.mp (ih hallrest errs)
      simp [patternWalk, hse, hw]
    | none =>
      obtain ⟨⟨part, errs1, d1⟩, hr⟩ :=
        Option.isSome_iff_exists.mp (hall e (List.mem_cons_self e rest) errs)
      have hd1 : d1 = d := hpres _ _ _ _ hr
      rw [hd1] at hr
      obtain ⟨⟨r, errs3, d3⟩, hw⟩ :=
        Option.isSome_iff_exists.mp (ih hallrest (placeChunk ctx part errs1).2)
      simp [patternWalk, hse, hr, hw]

/-- The expression inside a call argument (positional or named). -/
def CallArg.argExpr : CallArg → Expr
  | .pos e => e
  | .named _ e => e

theorem argsWalk_isSome {resolveE : Resolver}
    (hpres : ∀ e errs d r, resolveE e errs d = some r → r.2.2 = d) :
    ∀ {cargs : List CallArg} {d : Finset ℕ},
      (∀ a ∈ cargs, ∀ errs, (resolveE a.argExpr errs d).isSome) →
      ∀ errs, (argsWalk resolveE cargs errs d).isSome := by
  intro cargs
  induction cargs with
  | nil =>
    intro d hall errs
    simp [argsWalk]
  | cons a rest ih =>
    intro d hall errs
    have hallrest : ∀ b ∈ rest, ∀ errs, (resolveE b.argExpr errs d).isSome :=
      fun b hb errs => hall b (List.mem_cons_of_mem _ hb) errs
    cases a with
    | pos e =>
      obtain ⟨⟨v, errs1, d1⟩, hr⟩ :=
        Option.isSome_iff_exists.mp (hall _ (List.mem_cons_self _ rest) errs)
      have hd1 : d1 = d := hpres _ _ _ _ hr
      rw [hd1] at hr
      simp only [CallArg.argExpr] at hr
      obtain ⟨⟨pos, named, errs2, d2⟩, hw⟩ :=
        Option.isSome_iff_exists.mp (ih hallrest errs1)
      simp only [argsWalk]
      rw [hr]
      simp only []
      rw [hw]
      simp
    | named n e =>
      obtain ⟨⟨v, errs1, d1⟩, hr⟩ :=
        Option.isSome_iff_exists.mp (hall _ (List.mem_cons_self _ rest) errs)
      have hd1 : d1 = d := hpres _ _ _ _ hr
      rw [hd1] at hr
      simp only [CallArg.argExpr] at hr
      obtain ⟨⟨pos, named, errs2, d2⟩, hw⟩ :=
        Option.isSome_iff_exists.mp (ih hallrest errs1)
      simp only [argsWalk]
      rw [hr]
      simp only []
      rw [hw]
      simp

theorem PatternR_isSome {ctx : Ctx} {resolveE : Resolver}
    (hpres : ∀ e errs d r, resolveE e errs d = some r → r.2.2 = d)
    {pid : ℕ} {pelems : List Expr} {d : Finset ℕ}
    (hall : pid ∉ d → ∀ e ∈ pelems, ∀ errs,
      (resolveE e errs (insert pid d)).isSome)
    (errs : List JSErr) : (PatternR ctx resolveE pid pelems errs d).isSome := by
  by_cases hpid : pid ∈ d
  · simp [PatternR, hpid]
  · obtain ⟨⟨res, errs', d'⟩, hw⟩ :=
      Option.isSome_iff_exists.mp (patternWalk_isSome ctx hpres (hall hpid) errs)
    simp [PatternR, hpid, hw]

theorem TypePatR_isSome {ctx : Ctx} {resolveE : Resolver}
    (hpres : ∀ e errs d r, resolveE e errs d = some r → r.2.2 = d)
    {p : PatOrStr} {d : Finset ℕ}
    (hall : ∀ pid pelems, p = .pat pid pelems → pid ∉ d →
      ∀ e ∈ pelems, ∀ errs, (resolveE e errs (insert pid d)).isSome)
    (errs : List JSErr) : (TypePatR ctx resolveE p errs d).isSome := by
  cases p with
  | str s => simp [TypePatR]
  | pat pid pelems => exact PatternR_isSome hpres (hall pid pelems rfl) errs

/-- The value node a message entry resolves through (`Type` on an entry): a
bare entry is its own value, a message object uses its `val` field. -/
def entryMainPat : Entry → Option PatOrStr
  | .bare p => some p
  | .msg m => m.val

theorem TypeEntryR_isSome {ctx : Ctx} {resolveE : Resolver}
    {ent : Entry} {d : Finset ℕ}
    (hall : ∀ p, entryMainPat ent = some p →
      ∀ errs, (TypePatR ctx resolveE p errs d).isSome)
    (errs : List JSErr) : (TypeEntryR ctx resolveE ent errs d).isSome := by
  cases ent with
  | bare p =>
    have := hall p rfl errs
    simpa [TypeEntryR] using this
  | msg m =>
    cases hval : m.val with
    | none => simp [TypeEntryR, hval]
    | some p =>
      have := hall p (by simp [entryMainPat, hval]) errs
      simp only [TypeEntryR, hval]
      exact this

theorem SelectR_isSome {ctx : Ctx} {resolveE : Resolver}
    {exp : Option Expr} {vars : List Variant} {dflt : ℕ} {d : Finset ℕ}
    (hsel : ∀ sexp, exp = some sexp → ∀ errs, (resolveE sexp errs d).isSome)
    (errs : List JSErr) :
    (SelectR ctx resolveE exp vars dflt errs d).isSome := by
  rw [SelectR.eq_def]
  cases exp with
  | none =>
    rcases hdm : DefaultMemberR vars dflt errs with ⟨r, errs'⟩
    simp [hdm]
  | some sexp =>
    obtain ⟨⟨sel, errs1, d1⟩, hr⟩ :=
      Option.isSome_iff_exists.mp (hsel sexp rfl errs)
    simp only []
    rw [hr]
    simp only []
    cases sel <;> (repeat' split) <;> simp

theorem AttrR_isSome {ctx : Ctx} {resolveE : Resolver}
    {id name : String} {d : Finset ℕ}
    (hTE : ∀ m, ctx.messages.lookup id = some m →
      ∀ errs, (TypeEntryR ctx resolveE m errs d).isSome)
    (errs : List JSErr) : (AttrR ctx resolveE id name errs d).isSome := by
  cases hm : ctx.messages.lookup id with
  | none => simp [AttrR, MessageReferenceR, hm]
  | some m =>
    simp only [AttrR, MessageReferenceR, hm]
    cases hattr : entryAttr m name with
    | some p => simp [hattr]
    | none =>
      obtain ⟨⟨v, errs2, d2⟩, he⟩ :=
        Option.isSome_iff_exists.mp (hTE m hm
          (errs ++ [.reference ("Unknown attribute: " ++ name)]))
      simp [hattr, he]

theorem isVariantListR_isSome_of_not_throws {ent : Entry}
    (h : entryThrows ent = false) : (isVariantListR (entryVal ent)).isSome := by
  simp only [entryThrows] at h
  cases hv : entryVal ent with
  | none => rfl
  | some p =>
    cases p with
    | str s => rfl
    | pat pid elems =>
      cases elems with
      | nil => rw [hv] at h; simp at h
      | cons e rest =>
        cases e with
        | str s => rfl
        | kw n => rfl
        | num v => rfl
        | ext n => rfl
        | func n => rfl
        | call fn cargs => rfl
        | ref n => rfl
        | attr a b => rfl
        | varRef a b => rfl
        | sel exp vars2 dflt2 =>
          cases exp with
          | none => rfl
          | some e2 => rfl

theorem lookup_not_throws :
    ∀ (l : List (String × Entry)) (name : String) (ent : Entry),
      l.all (fun p => !(entryThrows p.2)) = true →
      l.lookup name = some ent → entryThrows ent = false := by
  intro l
  induction l with
  | nil => intro name ent hall h; simp [List.lookup] at h
  | cons a rest ih =>
    intro name ent hall h
    simp only [List.all_cons, Bool.and_eq_true] at hall
    rw [List.lookup] at h
    split at h
    · cases h
      simpa using hall.1
    · exact ih name ent hall.2 h

theorem VarR_isSome {ctx : Ctx} {resolveE : Resolver}
    {id : String} {key : VKey} {d : Finset ℕ}
    (hnt : ∀ m, ctx.messages.lookup id = some m → entryThrows m = false)
    (hTE : ∀ m, ctx.messages.lookup id = some m →
      ∀ errs, (TypeEntryR ctx resolveE m errs d).isSome)
    (errs : List JSErr) : (VarR ctx resolveE id key errs d).isSome := by
  cases hm : ctx.messages.lookup id with
  | none => simp [VarR, MessageReferenceR, hm]
  | some m =>
    simp only [VarR, MessageReferenceR, hm]
    obtain ⟨bvl, hb⟩ := Option.isSome_iff_exists.mp
      (isVariantListR_isSome_of_not_throws (hnt m hm))
    rw [hb]
    simp only []
    cases hvl : (variantListVars (entryVal m)).bind
        (findVariantMatchingKeyword ctx (TypeVKey key)) with
    | some vnt => simp [hvl]
    | none =>
      obtain ⟨⟨v, errs2, d2⟩, he⟩ :=
        Option.isSome_iff_exists.mp (hTE m hm
          (errs ++ [.reference ("Unknown variant: " ++ (TypeVKey key).valueOf ctx)]))
      simp [hvl, he]

theorem CallR_isSome {ctx : Ctx} {resolveE : Resolver}
    (hpres : ∀ e errs d r, resolveE e errs d = some r → r.2.2 = d)
    {fn : String} {cargs : List CallArg} {d : Finset ℕ}
    (hall : ∀ a ∈ cargs, ∀ errs, (resolveE a.argExpr errs d).isSome)
    (errs : List JSErr) : (CallR ctx resolveE fn cargs errs d).isSome := by
  rcases hf : FunctionReferenceR ctx fn errs with ⟨fv, errs1⟩
  cases fv with
  | none h => simp [CallR, hf]
  | str s =>
    obtain ⟨⟨pos, named, errs2, d2⟩, hw⟩ :=
      Option.isSome_iff_exists.mp (argsWalk_isSome hpres hall errs1)
    cases hlc : lookupCallable ctx fn <;> simp [CallR, hf, hw, hlc]
  | func n =>
    obtain ⟨⟨pos, named, errs2, d2⟩, hw⟩ :=
      Option.isSome_iff_exists.mp (argsWalk_isSome hpres hall errs1)
    cases hlc : lookupCallable ctx fn <;> simp [CallR, hf, hw, hlc]
  | number a b =>
    obtain ⟨⟨pos, named, errs2, d2⟩, hw⟩ :=
      Option.isSome_iff_exists.mp (argsWalk_isSome hpres hall errs1)
    cases hlc : lookupCallable ctx fn <;> simp [CallR, hf, hw, hlc]
  | datetime a b =>
    obtain ⟨⟨pos, named, errs2, d2⟩, hw⟩ :=
      Option.isSome_iff_exists.mp (argsWalk_isSome hpres hall errs1)
    cases hlc : lookupCallable ctx fn <;> simp [CallR, hf, hw, hlc]
  | keyword k =>
    obtain ⟨⟨pos, named, errs2, d2⟩, hw⟩ :=
      Option.isSome_iff_exists.mp (argsWalk_isSome hpres hall errs1)
    cases hlc : lookupCallable ctx fn <;> simp [CallR, hf, hw, hlc]
  | parts l =>
    obtain ⟨⟨pos, named, errs2, d2⟩, hw⟩ :=
      Option.isSome_iff_exists.mp (argsWalk_isSome hpres hall errs1)
    cases hlc : lookupCallable ctx fn <;> simp [CallR, hf, hw, hlc]

theorem DefaultMemberR_inl_mem {vars : List Variant} {dflt : ℕ}
    {errs errs' : List JSErr} {v : Variant}
    (h : DefaultMemberR vars dflt errs = (.inl v, errs')) : v ∈ vars := by
  simp only [DefaultMemberR] at h
  split at h
  · next hv =>
      cases h
      obtain ⟨hlt, rfl⟩ := List.getElem?_eq_some.mp hv
      exact List.getElem_mem hlt
  · simp at h

theorem findMatchingVariant_mem {ctx : Ctx} {vars : List Variant}
    {sel : FluentValue} {v : Variant}
    (h : findMatchingVariant ctx vars sel = some v) : v ∈ vars :=
  List.mem_of_find?_eq_some h

theorem findVariantMatchingKeyword_mem {ctx : Ctx} {keyword : FluentValue}
    {vars : List Variant} {v : Variant}
    (h : findVariantMatchingKeyword ctx keyword vars = some v) : v ∈ vars :=
  List.mem_of_find?_eq_some h

theorem SelectR_inl_mem {ctx : Ctx} {resolveE : Resolver}
    {exp : Option Expr} {vars : List Variant} {dflt : ℕ}
    {errs errs' : List JSErr} {d d' : Finset ℕ} {v : Variant}
    (h : SelectR ctx resolveE exp vars dflt errs d = some (.inl v, errs', d')) :
    v ∈ vars := by
  rw [SelectR.eq_def] at h
  split at h
  · split at h
    next r errs2 hdm =>
      cases h
      exact DefaultMemberR_inl_mem hdm
  · split at h
    · exact absurd h (by simp)
    · split at h
      · split at h
        next r errs2 hdm =>
          cases h
          exact DefaultMemberR_inl_mem hdm
      · split at h
        · next hf =>
            cases h
            exact findMatchingVariant_mem hf
        · split at h
          next r errs2 hdm =>
            cases h
            exact DefaultMemberR_inl_mem hdm

theorem AttrR_inl_char {ctx : Ctx} {resolveE : Resolver}
    {id name : String} {errs errs' : List JSErr} {d d' : Finset ℕ} {p : PatOrStr}
    (h : AttrR ctx resolveE id name errs d = some (.inl p, errs', d')) :
    ∃ m, ctx.messages.lookup id = some m ∧ entryAttr m name = some p := by
  cases hm : ctx.messages.lookup id with
  | none =>
    simp only [AttrR, MessageReferenceR, hm] at h
    cases h
  | some m =>
    simp only [AttrR, MessageReferenceR, hm] at h
    refine ⟨m, rfl, ?_⟩
    split at h
    · next hattr =>
        cases h
        exact hattr
    · split at h
      · exact absurd h (by simp)
      · simp at h

theorem VarR_inl_char {ctx : Ctx} {resolveE : Resolver}
    {id : String} {key : VKey} {errs errs' : List JSErr} {d d' : Finset ℕ}
    {vnt : Variant}
    (h : VarR ctx resolveE id key errs d = some (.inl vnt, errs', d')) :
    ∃ m, ctx.messages.lookup id = some m ∧
      ∃ vars, variantListVars (entryVal m) = some vars ∧ vnt ∈ vars := by
  cases hm : ctx.messages.lookup id with
  | none =>
    simp only [VarR, MessageReferenceR, hm] at h
    cases h
  | some m =>
    simp only [VarR, MessageReferenceR, hm] at h
    refine ⟨m, rfl, ?_⟩
    split at h
    · exact absurd h (by simp)
    · split at h
      · next hvl =>
          cases h
          cases hvv : variantListVars (entryVal m) with
          | none => rw [hvv] at hvl; simp at hvl
          | some vars =>
            rw [hvv] at hvl
            simp only [Option.some_bind] at hvl
            exact ⟨vars, rfl, findVariantMatchingKeyword_mem hvl⟩
      · split at h
        · exact absurd h (by simp)
        · simp at h

theorem entryMainPat_bounds {ent : Entry} {p : PatOrStr}
    (h : entryMainPat ent = some p) :
    sizePS p ≤ sizeEntry ent ∧ pidsPS p ⊆ pidsEntry ent := by
  cases ent with
  | bare q =>
    simp only [entryMainPat, Option.some.injEq] at h
    subst h
    constructor
    · simp only [sizeEntry]; omega
    · simp only [pidsEntry]
      exact Finset.Subset.refl _
  | msg m =>
    cases hval : m.val with
    | none => simp [entryMainPat, hval] at h
    | some q =>
      simp only [entryMainPat, hval, Option.some.injEq] at h
      subst h
      constructor
      · simp only [sizeEntry, hval, sizeOPS]; omega
      · simp only [pidsEntry, hval, pidsOPS]
        exact Finset.subset_union_left

theorem entryAttr_bounds {ent : Entry} {name : String} {p : PatOrStr}
    (h : entryAttr ent name = some p) :
    sizePS p ≤ sizeEntry ent ∧ pidsPS p ⊆ pidsEntry ent := by
  cases ent with
  | bare q => simp [entryAttr] at h
  | msg m =>
    simp only [entryAttr] at h
    constructor
    · have := lookup_sizeAttrs m.attrs name p h
      simp only [sizeEntry]
      omega
    · have := lookup_pidsAttrs m.attrs name p h
      simp only [pidsEntry]
      exact this.trans Finset.subset_union_right

theorem variantListVars_bounds {ent : Entry} {vars : List Variant}
    (h : variantListVars (entryVal ent) = some vars) :
    sizeVars vars ≤ sizeEntry ent ∧ pidsVars vars ⊆ pidsEntry ent := by
  cases ent with
  | bare q => simp [entryVal, variantListVars] at h
  | msg m =>
    cases hval : m.val with
    | none => simp [entryVal, hval, variantListVars] at h
    | some ps =>
      cases ps with
      | str s => simp [entryVal, hval, variantListVars] at h
      | pat pid elems =>
        cases elems with
        | nil => simp [entryVal, hval, variantListVars] at h
        | cons e rest =>
          cases e with
          | sel exp vars2 dflt2 =>
            cases exp with
            | none =>
              simp only [entryVal, hval, variantListVars, Option.some.injEq] at h
              subst h
              constructor
              · simp only [sizeEntry, hval, sizeOPS, sizePS, sizeElems, sizeE, sizeOE]
                omega
              · simp only [pidsEntry, hval, pidsOPS, pidsPS, pidsElems, pidsE, pidsOE]
                refine Finset.Subset.trans ?_ Finset.subset_union_left
                refine Finset.Subset.trans ?_ (Finset.subset_insert pid _)
                refine Finset.Subset.trans ?_ Finset.subset_union_left
                exact Finset.subset_union_right
            | some e2 => simp [entryVal, hval, variantListVars] at h
          | str s => simp [entryVal, hval, variantListVars] at h
          | kw a => simp [entryVal, hval, variantListVars] at h
          | num a => simp [entryVal, hval, variantListVars] at h
          | ext a => simp [entryVal, hval, variantListVars] at h
          | func a => simp [entryVal, hval, variantListVars] at h
          | call a b => simp [entryVal, hval, variantListVars] at h
          | ref a => simp [entryVal, hval, variantListVars] at h
          | attr a b => simp [entryVal, hval, variantListVars] at h
          | varRef a b => simp [entryVal, hval, variantListVars] at h

theorem variant_val_bounds {vars : List Variant} {vnt : Variant} (h : vnt ∈ vars) :
    sizePS vnt.val + 1 ≤ sizeVars vars ∧ pidsPS vnt.val ⊆ pidsVars vars := by
  have h1 := mem_sizeVar h
  have h2 := mem_pidsVar h
  cases vnt with
  | mk k v =>
    simp only [sizeVar] at h1
    simp only [pidsVar] at h2
    simp only [Variant.val]
    exact ⟨by omega, h2⟩

theorem mu_into_pattern {V d : Finset ℕ} {pid : ℕ} {S sze szcur n : ℕ}
    (hpidV : pid ∈ V) (hpid : pid ∉ d)
    (hsze : sze ≤ S) (hszcur : 1 ≤ szcur)
    (hμ : (V.card - (d ∩ V).card) * (S + 1) + szcur ≤ n) :
    (V.card - ((insert pid d) ∩ V).card) * (S + 1) + sze + 1 ≤ n := by
  have hins : (insert pid d) ∩ V = insert pid (d ∩ V) :=
    Finset.insert_inter_of_mem hpidV
  have hnotin : pid ∉ d ∩ V := fun hmem => hpid (Finset.mem_of_mem_inter_left hmem)
  have hcard : ((insert pid d) ∩ V).card = (d ∩ V).card + 1 := by
    rw [hins, Finset.card_insert_of_not_mem hnotin]
  have hle : (d ∩ V).card + 1 ≤ V.card := by
    have hsub : insert pid (d ∩ V) ⊆ V :=
      Finset.insert_subset hpidV Finset.inter_subset_right
    have := Finset.card_le_card hsub
    rwa [Finset.card_insert_of_not_mem hnotin] at this
  have hexp : (V.card - (d ∩ V).card) * (S + 1)
      = (V.card - ((d ∩ V).card + 1)) * (S + 1) + (S + 1) := by
    have h1 : V.card - (d ∩ V).card = (V.card - ((d ∩ V).card + 1)) + 1 := by omega
    rw [h1]; ring
  rw [hexp] at hμ
  rw [hcard]
  omega

theorem TypeF_sufficient (ctx : Ctx) (args : ArgBag) (V : Finset ℕ) (S : ℕ)
    (hctxS : ∀ name ent, ctx.messages.lookup name = some ent → sizeEntry ent ≤ S)
    (hctxP : ∀ name ent, ctx.messages.lookup name = some ent → pidsEntry ent ⊆ V)
    (hctxT : ∀ name ent, ctx.messages.lookup name = some ent →
      entryThrows ent = false) :
    ∀ (n : ℕ) (e : Expr) (d : Finset ℕ), pidsE e ⊆ V → sizeE e ≤ S →
      (V.card - (d ∩ V).card) * (S + 1) + sizeE e ≤ n →
      ∀ errs, (TypeF ctx args (n + 1) e errs d).isSome := by
  intro n
  induction n using Nat.strong_induction_on with
  | _ n ih =>
    intro e d hpids hsize hμ errs
    have hsub : ∀ (e' : Expr) (d' : Finset ℕ), pidsE e' ⊆ V → sizeE e' ≤ S →
        (V.card - (d' ∩ V).card) * (S + 1) + sizeE e' + 1 ≤ n →
        ∀ errs', (TypeF ctx args n e' errs' d').isSome := by
      intro e' d' hp hs hμ' errs'
      have h1 := sizeE_pos e'
      obtain ⟨m, rfl⟩ : ∃ m, n = m + 1 := ⟨n - 1, by omega⟩
      exact ih m (by omega) e' d' hp hs (by omega) errs'
    have hpres : ∀ (e3 : Expr) (errs3 : List JSErr) (d3 : Finset ℕ)
        (r : FluentValue × List JSErr × Finset ℕ),
        TypeF ctx args n e3 errs3 d3 = some r → r.2.2 = d3 :=
      fun e3 errs3 d3 r h => TypeF_dirty n e3 errs3 d3 r h
    have hPat : ∀ (p : PatOrStr), pidsPS p ⊆ V → sizePS p ≤ S →
        ∀ errs2, (TypePatR ctx (TypeF ctx args n) p errs2 d).isSome := by
      intro p hpP hpS errs2
      refine TypePatR_isSome hpres ?_ errs2
      intro pid pelems hpeq hpid e3 he3 errs3
      subst hpeq
      have hpidV : pid ∈ V := hpP (Finset.mem_insert_self pid _)
      have he3P : pidsE e3 ⊆ V := by
        refine Finset.Subset.trans ?_ hpP
        simp only [pidsPS]
        exact (mem_pidsE_elems he3).trans (Finset.subset_insert pid _)
      have he3S : sizeE e3 ≤ S := by
        have h1 := mem_sizeE_elems he3
        simp only [sizePS] at hpS
        omega
      have hμ3 := mu_into_pattern hpidV hpid he3S (sizeE_pos e) hμ
      exact hsub e3 (insert pid d) he3P he3S hμ3 errs3
    have hEnt : ∀ (m : Entry), sizeEntry m ≤ S → pidsEntry m ⊆ V →
        ∀ errs2, (TypeEntryR ctx (TypeF ctx args n) m errs2 d).isSome := by
      intro m hmS hmP errs2
      refine TypeEntryR_isSome ?_ errs2
      intro p hp errs3
      obtain ⟨hs, hp2⟩ := entryMainPat_bounds hp
      exact hPat p (hp2.trans hmP) (le_trans hs hmS) errs3
    cases e with
    | str s => simp [TypeF]
    | kw k => simp [TypeF]
    | num v => simp [TypeF]
    | ext name =>
      rcases he : ExternalArgumentR args name errs with ⟨v, errs'⟩
      simp [TypeF, he]
    | func name =>
      rcases he : FunctionReferenceR ctx name errs with ⟨v, errs'⟩
      simp [TypeF, he]
    | call fn cargs =>
      simp only [TypeF]
      refine CallR_isSome hpres ?_ errs
      intro a ha errs3
      have h1 := mem_sizeArg ha
      have h2 := mem_pidsArg ha
      have haS : sizeE a.argExpr + 1 ≤ sizeArgs cargs := by
        cases a with
        | pos e3 => simp only [CallArg.argExpr]; simp only [sizeArg] at h1; omega
        | named nm e3 => simp only [CallArg.argExpr]; simp only [sizeArg] at h1; omega
      have haP : pidsE a.argExpr ⊆ V := by
        refine Finset.Subset.trans ?_ hpids
        simp only [pidsE]
        cases a with
        | pos e3 => simpa only [CallArg.argExpr, pidsArg] using h2
        | named nm e3 => simpa only [CallArg.argExpr, pidsArg] using h2
      simp only [sizeE] at hsize hμ
      exact hsub a.argExpr d haP (by omega) (by omega) errs3
    | ref name =>
      simp only [TypeF]
      cases hm : ctx.messages.lookup name with
      | none => simp [MessageReferenceR, hm]
      | some m =>
        simp only [MessageReferenceR, hm]
        exact hEnt m (hctxS name m hm) (hctxP name m hm) errs
    | attr id aname =>
      simp only [TypeF]
      cases hA : AttrR ctx (TypeF ctx args n) id aname errs d with
      | none =>
        have hco : (AttrR ctx (TypeF ctx args n) id aname errs d).isSome :=
          AttrR_isSome
            (fun m hm errs2 => hEnt m (hctxS id m hm) (hctxP id m hm) errs2) errs
        rw [hA] at hco
        simp at hco
      | some r =>
        rcases r with ⟨v, errs', d'⟩
        cases v with
        | inl p =>
          obtain ⟨m, hm, hattr⟩ := AttrR_inl_char hA
          obtain ⟨hs, hp⟩ := entryAttr_bounds hattr
          have hd' : d' = d := AttrR_dirty hpres hA
          subst hd'
          have hres := hPat p (hp.trans (hctxP id m hm))
            (le_trans hs (hctxS id m hm)) errs'
          simp only [hA]
          exact hres
        | inr v =>
          rcases htv : TypeOfValue ctx v errs' with ⟨v2, errs2⟩
          simp [hA, htv]
    | varRef id key =>
      simp only [TypeF]
      cases hA : VarR ctx (TypeF ctx args n) id key errs d with
      | none =>
        have hco : (VarR ctx (TypeF ctx args n) id key errs d).isSome :=
          VarR_isSome (fun m hm => hctxT id m hm)
            (fun m hm errs2 => hEnt m (hctxS id m hm) (hctxP id m hm) errs2) errs
        rw [hA] at hco
        simp at hco
      | some r =>
        rcases r with ⟨v, errs', d'⟩
        cases v with
        | inl vnt =>
          obtain ⟨m, hm, vars, hvl, hmem⟩ := VarR_inl_char hA
          obtain ⟨hs1, hp1⟩ := variantListVars_bounds hvl
          obtain ⟨hs2, hp2⟩ := variant_val_bounds hmem
          have hd' : d' = d := VarR_dirty hpres hA
          subst hd'
          have hmS := hctxS id m hm
          have hres := hPat vnt.val ((hp2.trans hp1).trans (hctxP id m hm))
            (by omega) errs'
          simp only [hA]
          exact hres
        | inr v =>
          rcases htv : TypeOfValue ctx v errs' with ⟨v2, errs2⟩
          simp [hA, htv]
    | sel exp vars dflt =>
      simp only [TypeF]
      have hselres : ∀ sexp, exp = some sexp →
          ∀ errs2, (TypeF ctx args n sexp errs2 d).isSome := by
        intro sexp hexp errs2
        subst hexp
        have hsP : pidsE sexp ⊆ V := by
          refine Finset.Subset.trans ?_ hpids
          simp only [pidsE, pidsOE]
          exact Finset.subset_union_left
        have hsS : sizeE sexp ≤ S := by
          simp only [sizeE, sizeOE] at hsize
          omega
        refine hsub sexp d hsP hsS ?_ errs2
        simp only [sizeE, sizeOE] at hμ
        omega
      cases hSel : SelectR ctx (TypeF ctx args n) exp vars dflt errs d with
      | none =>
        have hco : (SelectR ctx (TypeF ctx args n) exp vars dflt errs d).isSome :=
          SelectR_isSome hselres errs
        rw [hSel] at hco
        simp at hco
      | some r =>
        rcases r with ⟨v, errs', d'⟩
        cases v with
        | inl vnt =>
          have hmem := SelectR_inl_mem hSel
          obtain ⟨hs2, hp2⟩ := variant_val_bounds hmem
          have hd' : d' = d := SelectR_dirty hpres hSel
          subst hd'
          have hvS : sizePS vnt.val ≤ S := by
            simp only [sizeE] at hsize
            omega
          have hvP : pidsPS vnt.val ⊆ V := by
            refine Finset.Subset.trans ?_ hpids
            simp only [pidsE]
            exact hp2.trans Finset.subset_union_right
          have hres := hPat vnt.val hvP hvS errs'
          simp only [hSel]
          exact hres
        | inr v =>
          rcases htv : TypeOfValue ctx v errs' with ⟨v2, errs2⟩
          simp [hSel, htv]

theorem resolveF_total (ctx : Ctx) (args : ArgBag) (root : Entry)
    (hnt : CtxNoThrow ctx = true) (errs : List JSErr) :
    ∃ fuel, (resolveF ctx args fuel root errs).isSome := by
  set V := pidsCtx ctx.messages ∪ pidsEntry root with hV
  set S := sizeCtx ctx.messages + sizeEntry root with hS
  have hctxS : ∀ name ent, ctx.messages.lookup name = some ent → sizeEntry ent ≤ S := by
    intro name ent h
    have := lookup_sizeEntry ctx.messages name ent h
    omega
  have hctxP : ∀ name ent, ctx.messages.lookup name = some ent → pidsEntry ent ⊆ V := by
    intro name ent h
    exact (lookup_pidsEntry ctx.messages name ent h).trans Finset.subset_union_left
  have hctxT : ∀ name ent, ctx.messages.lookup name = some ent →
      entryThrows ent = false := by
    intro name ent h
    exact lookup_not_throws ctx.messages name ent hnt h
  refine ⟨V.card * (S + 1) + S + 1, ?_⟩
  simp only [resolveF]
  have hres : (TypeEntryR ctx (TypeF ctx args (V.card * (S + 1) + S + 1)) root
      errs ∅).isSome := by
    refine TypeEntryR_isSome ?_ errs
    intro p hp errs2
    obtain ⟨hs, hpd⟩ := entryMainPat_bounds hp
    have hrootS : sizeEntry root ≤ S := by omega
    have hrootP : pidsEntry root ⊆ V := Finset.subset_union_right
    have hpS : sizePS p ≤ S := le_trans hs hrootS
    have hpP : pidsPS p ⊆ V := hpd.trans hrootP
    refine TypePatR_isSome
      (fun e3 errs3 d3 r h =>
        TypeF_dirty (V.card * (S + 1) + S + 1) e3 errs3 d3 r h) ?_ errs2
    intro pid pelems hpeq hpid e3 he3 errs3
    subst hpeq
    have he3P : pidsE e3 ⊆ V := by
      refine Finset.Subset.trans ?_ hpP
      simp only [pidsPS]
      exact (mem_pidsE_elems he3).trans (Finset.subset_insert pid _)
    have he3S : sizeE e3 ≤ S := by
      have h1 := mem_sizeE_elems he3
      simp only [sizePS] at hpS
      omega
    have hμ : (V.card - ((insert pid (∅ : Finset ℕ)) ∩ V).card) * (S + 1) + sizeE e3 ≤
        V.card * (S + 1) + S := by
      have h2 : V.card - ((insert pid (∅ : Finset ℕ)) ∩ V).card ≤ V.card :=
        Nat.sub_le _ _
      have h3 := Nat.mul_le_mul_right (S + 1) h2
      omega
    exact TypeF_sufficient ctx args V S hctxS hctxP hctxT (V.card * (S + 1) + S)
      e3 (insert pid ∅) he3P he3S hμ errs3
  obtain ⟨⟨v, errs', d'⟩, hr⟩ := Option.isSome_iff_exists.mp hres
  simp [hr]

/-- Statement apparatus for the isolation-bracketing claim: a result list is
an interleaving of raw literal strings and bracketed segments, where every
bracketed segment starts with the FSI string and ends with the PDI string;
in particular every value that is not a raw string sits inside a bracket. -/
inductive IsolatedConcat : List FluentValue → Prop where
  | nil : IsolatedConcat []
  | lit (s : String) (r : List FluentValue) : IsolatedConcat r →
      IsolatedConcat (FluentValue.str s :: r)
  | isol (mid r : List FluentValue) : IsolatedConcat r →
      IsolatedConcat (FluentValue.str FSI :: (mid ++ (FluentValue.str PDI :: r)))

theorem patternWalk_isolated {ctx : Ctx} {resolveE : Resolver}
    (hiso : ctx.useIsolating = true) :
    ∀ {elems : List Expr} {errs : List JSErr} {d : Finset ℕ}
      {res : List FluentValue} {errs' : List JSErr} {d' : Finset ℕ},
      patternWalk ctx resolveE elems errs d = some (res, errs', d') →
      IsolatedConcat res := by
  intro elems
  induction elems with
  | nil =>
    intro errs d res errs' d' h
    simp only [patternWalk] at h
    cases h
    exact IsolatedConcat.nil
  | cons e rest ih =>
    intro errs d res errs' d' h
    rw [patternWalk] at h
    split at h
    · split at h
      · next hw =>
          cases h
          exact IsolatedConcat.lit _ _ (ih hw)
      · exact absurd h (by simp)
    · split at h
      · exact absurd h (by simp)
      · next part errs1 d1 hres1 =>
          split at h
          split at h
          · next hw =>
              cases h
              have hrest := ih hw
              simp only [isoWrap, hiso, if_true, List.cons_append,
                List.append_assoc, List.singleton_append]
              exact IsolatedConcat.isol _ _ hrest
          · exact absurd h (by simp)

theorem PatternR_isolated {ctx : Ctx} {resolveE : Resolver}
    (hiso : ctx.useIsolating = true)
    {pid : ℕ} {pelems : List Expr} {errs : List JSErr} {d : Finset ℕ}
    {res : List FluentValue} {errs' : List JSErr} {d' : Finset ℕ}
    (h : PatternR ctx resolveE pid pelems errs d = some (.parts res, errs', d')) :
    IsolatedConcat res := by
  rw [PatternR] at h
  split at h
  · simp at h
  · split at h
    · next hw =>
        cases h
        exact patternWalk_isolated hiso hw
    · exact absurd h (by simp)

theorem patternWalk_literal (ctx : Ctx) (resolveE : Resolver) :
    ∀ (ss : List String) (errs : List JSErr) (d : Finset ℕ),
      patternWalk ctx resolveE (ss.map Expr.str) errs d =
        some (ss.map FluentValue.str, errs, d) := by
  intro ss
  induction ss with
  | nil => intro errs d; simp [patternWalk]
  | cons s rest ih =>
    intro errs d
    simp only [List.map_cons, patternWalk, isStrElem]
    rw [ih errs d]

theorem PatternR_literal (ctx : Ctx) (resolveE : Resolver)
    {pid : ℕ} {d : Finset ℕ} (hpid : pid ∉ d)
    (ss : List String) (errs : List JSErr) :
    PatternR ctx resolveE pid (ss.map Expr.str) errs d =
      some (.parts (ss.map FluentValue.str), errs, d) := by
  simp only [PatternR, hpid, if_false]
  rw [patternWalk_literal ctx resolveE ss errs (insert pid d)]
  simp only []
  rw [Finset.erase_insert hpid]

theorem foldl_append_data :
    ∀ (L : List String) (acc : String),
      (L.foldl (· ++ ·) acc).data = acc.data ++ (L.map String.data).flatten := by
  intro L
  induction L with
  | nil => intro acc; simp
  | cons s rest ih =>
    intro acc
    simp only [List.foldl_cons, List.map_cons, List.flatten]
    rw [ih (acc ++ s), String.data_append]
    simp [List.append_assoc]

theorem data_join (L : List String) :
    (String.join L).data = (L.map String.data).flatten := by
  have := foldl_append_data L ""
  simpa [String.join] using this

theorem patternWalk_single (ctx : Ctx) {resolveE : Resolver} {e : Expr}
    {errs : List JSErr} {d : Finset ℕ} {part : FluentValue}
    {errs1 : List JSErr} {d1 : Finset ℕ}
    (hstr : isStrElem e = Option.none)
    (hres : resolveE e errs d = some (part, errs1, d1)) :
    patternWalk ctx resolveE [e] errs d =
      some (isoWrap ctx (placeChunk ctx part errs1).1,
        (placeChunk ctx part errs1).2, d1) := by
  simp only [patternWalk, hstr, hres]
  rcases hpc : placeChunk ctx part errs1 with ⟨chunk, errs2⟩
  simp [patternWalk]

theorem PatternR_single_parts (ctx : Ctx) (resolveE : Resolver)
    {pid : ℕ} {e : Expr} {errs errs1 : List JSErr} {d : Finset ℕ}
    {l : List FluentValue}
    (hpid : pid ∉ d) (hstr : isStrElem e = Option.none)
    (hiso : ctx.useIsolating = false)
    (hres : resolveE e errs (insert pid d) = some (.parts l, errs1, insert pid d)) :
    (MAX_PLACEABLE_LENGTH < PlaceableLength ctx l →
      PatternR ctx resolveE pid [e] errs d =
        some (.parts [.none Option.none],
          errs1 ++ [.range ("Too many characters in placeable (" ++
            toString (PlaceableLength ctx l) ++ ", max allowed is " ++
            toString MAX_PLACEABLE_LENGTH ++ ")")], d)) ∧
    (PlaceableLength ctx l ≤ MAX_PLACEABLE_LENGTH →
      PatternR ctx resolveE pid [e] errs d = some (.parts l, errs1, d)) := by
  have hwalk := patternWalk_single ctx hstr hres
  constructor
  · intro hlen
    simp only [PatternR, hpid, if_false]
    rw [hwalk]
    simp only [placeChunk, isoWrap, hiso, if_false, gt_iff_lt, hlen, if_true]
    simp [Finset.erase_insert hpid]
  · intro hlen
    simp only [PatternR, hpid, if_false]
    rw [hwalk]
    have hlen2 : ¬ (MAX_PLACEABLE_LENGTH < PlaceableLength ctx l) := by omega
    simp only [placeChunk, isoWrap, hiso, if_false, gt_iff_lt, hlen2]
    simp [Finset.erase_insert hpid]

theorem PatternR_single_nonparts (ctx : Ctx) (resolveE : Resolver)
    {pid : ℕ} {e : Expr} {errs errs1 : List JSErr} {d : Finset ℕ}
    {v : FluentValue}
    (hpid : pid ∉ d) (hstr : isStrElem e = Option.none)
    (hiso : ctx.useIsolating = false)
    (hres : resolveE e errs (insert pid d) = some (v, errs1, insert pid d))
    (hnp : ∀ l, v ≠ .parts l) :
    PatternR ctx resolveE pid [e] errs d = some (.parts [v], errs1, d) := by
  have hwalk := patternWalk_single ctx hstr hres
  simp only [PatternR, hpid, if_false]
  rw [hwalk]
  have hpc : placeChunk ctx v errs1 = ([v], errs1) := by
    cases v with
    | parts l => exact absurd rfl (hnp l)
    | str s => simp [placeChunk]
    | none h => simp [placeChunk]
    | number a b => simp [placeChunk]
    | datetime a b => simp [placeChunk]
    | keyword k => simp [placeChunk]
    | func n => simp [placeChunk]
  rw [hpc]
  simp only [isoWrap, hiso, if_false]
  simp [Finset.erase_insert hpid]

/-- A concrete plural-rules formatter for witnesses, modelling
`Intl.PluralRules` for the `en-US` locale on cardinal numbers: the category
is "one" exactly for the number 1 and "other" otherwise ("other" also for
`NaN`). -/
def enPluralSelect (q : Option ℚ) : String :=
  match q with
  | some x => if x.num = 1 ∧ x.den = 1 then "one" else "other"
  | Option.none => "other"

/-- A concrete context for witnesses: a message store, the isolation flag,
no user functions, and simple injected formatters with `en-US` plural
rules. -/
def mkCtx (messages : List (String × Entry)) (iso : Bool) : Ctx where
  messages := messages
  functions := fun _ => Option.none
  useIsolating := iso
  formatNumber := fun _ q =>
    match q with
    | some x => toString x.num
    | Option.none => "NaN"
  formatDate := fun _ _ => ""
  pluralSelect := fun _ q => enPluralSelect q

/-- The cyclic pair of the spec's scenario 5: `foo = { bar }`. -/
def fooCycEntry : Entry := .msg ⟨some (.pat 0 [Expr.ref "bar"]), []⟩

/-- The cyclic pair of the spec's scenario 5: `bar = { foo }`. -/
def barCycEntry : Entry := .msg ⟨some (.pat 1 [Expr.ref "foo"]), []⟩

/-- Context holding the cyclic pair. -/
def ctxCyc : Ctx := mkCtx [("foo", fooCycEntry), ("bar", barCycEntry)] false

/-- Scenario 6: `foo = { 1 -> *[one] A [other] B }`. -/
def fooSelEntry : Entry :=
  .msg ⟨some (.pat 0 [Expr.sel (some (.num "1"))
    [⟨.kw "one", .str "A"⟩, ⟨.kw "other", .str "B"⟩] 0]), []⟩

/-- Scenario 6: `bar = { 2 -> *[one] A [other] B }`. -/
def barSelEntry : Entry :=
  .msg ⟨some (.pat 1 [Expr.sel (some (.num "2"))
    [⟨.kw "one", .str "A"⟩, ⟨.kw "other", .str "B"⟩] 0]), []⟩

/-- Context holding the two select messages of scenario 6. -/
def ctxPl : Ctx := mkCtx [("foo", fooSelEntry), ("bar", barSelEntry)] false

/-- A message whose value is a pattern: `foo = Foo`. -/
def fooSibEntry : Entry := .msg ⟨some (.pat 1 [Expr.str "Foo"]), []⟩

/-- A message referencing the same message twice: `bar = { foo } { foo }`. -/
def barSibEntry : Entry :=
  .msg ⟨some (.pat 0 [Expr.ref "foo", Expr.str " ", Expr.ref "foo"]), []⟩

/-- Context for the sibling-reference test. -/
def ctxSib : Ctx := mkCtx [("foo", fooSibEntry), ("bar", barSibEntry)] false

/-- A string one character longer than `MAX_PLACEABLE_LENGTH`. -/
def longStr : String := String.mk (List.replicate 2501 'a')

/-- A message whose only element is an external-argument placeable:
`baz = { $arg }`. -/
def bazLongEntry : Entry := .msg ⟨some (.pat 0 [Expr.ext "arg"]), []⟩

/-- Context holding the external-argument message. -/
def ctxLong : Ctx := mkCtx [("baz", bazLongEntry)] false

/-- Argument bag binding `$arg` to the over-long string. -/
def argsLong : ArgBag := some [("arg", ArgVal.str longStr)]

/-- Context with isolation enabled holding `msg = a{ $x }`. -/
def ctxIso : Ctx :=
  mkCtx [("msg", .msg ⟨some (.pat 0 [Expr.str "a", Expr.ext "x"]), []⟩)] true

/-- A message whose value is an empty pattern array — the shape on which
`isVariantList` reads `node[0].type` off `undefined` and throws. -/
def emptyValEntry : Entry := .msg ⟨some (.pat 0 []), []⟩

/-- A message whose only element is a variant-expression placeable
targeting the empty-pattern message: `quux = { boom[one] }`. -/
def quuxEntry : Entry :=
  .msg ⟨some (.pat 1 [Expr.varRef "boom" (VKey.kw "one")]), []⟩

/-- Context pairing the empty-pattern message with the one referencing it. -/
def ctxThrow : Ctx := mkCtx [("boom", emptyValEntry), ("quux", quuxEntry)] false

/-- C2 counterexample: formatting `quux = { boom[one] }` where `boom` is a
message whose value is an empty pattern array — a tree conforming to the
entry-tree contract — never returns a result: the `isVariantList` shape
test reads `node[0].type` off `undefined` and the thrown `TypeError`
escapes the top-level `resolve`/`format` call, so no amount of fuel makes
the run produce a value/error-list pair. -/
theorem resolve_throws_on_empty_pattern_value :
    (∀ fuel, resolveF ctxThrow Option.none fuel quuxEntry [] = Option.none) ∧
    (∀ fuel, formatF ctxThrow Option.none fuel quuxEntry [] = Option.none) := by
  constructor
  · intro fuel
    cases fuel with
    | zero => rfl
    | succ n => rfl
  · intro fuel
    cases fuel with
    | zero => rfl
    | succ n => rfl

/-- C2 (amended): No exception escape on stores without empty-pattern
message values — for every message context whose store holds no message
with an empty pattern array as its value, every argument bag, entry tree
and incoming error list, the top-level `resolve` and `format` terminate:
some fuel makes the fueled dispatcher return an actual value, and the run
only appends to the caller's error list, substituting fallback values
instead of raising. (With an empty-pattern message value in the store the
`isVariantList` `TypeError` can escape, as the counterexample shows.) -/
theorem resolve_terminates_no_throw :
    ∀ (ctx : Ctx) (args : ArgBag) (root : Entry) (errs : List JSErr),
      CtxNoThrow ctx = true →
      (∃ fuel v δ, resolveF ctx args fuel root errs = some (v, errs ++ δ)) ∧
      (∃ fuel o δ, formatF ctx args fuel root errs = some (o, errs ++ δ)) := by
  intro ctx args root errs hnt
  obtain ⟨fuel, h⟩ := resolveF_total ctx args root hnt errs
  rcases resolveF_delta ctx args fuel root with hnone | ⟨v, δ, hr⟩
  · rw [hnone errs] at h
    simp at h
  · refine ⟨⟨fuel, v, δ, hr errs⟩, ?_⟩
    cases root with
    | bare p =>
      exact ⟨fuel, some (joinParts ctx v), δ, by
        simp only [formatF]
        rw [hr errs]⟩
    | msg m =>
      obtain ⟨mval, mattrs⟩ := m
      cases mval with
      | none =>
        exact ⟨fuel, Option.none, [], by simp [formatF]⟩
      | some p =>
        exact ⟨fuel, some (joinParts ctx v), δ, by
          simp only [formatF]
          rw [hr errs]⟩

/-- Witness for C2 at a concrete input: the sibling-reference store has no
empty-pattern message value, and resolving/formatting `bar` succeeds with
some fuel. -/
theorem resolve_terminates_no_throw_witness :
    CtxNoThrow ctxSib = true ∧
    ((∃ fuel v δ,
        resolveF ctxSib Option.none fuel barSibEntry [] = some (v, [] ++ δ)) ∧
     (∃ fuel o δ,
        formatF ctxSib Option.none fuel barSibEntry [] = some (o, [] ++ δ))) :=
  ⟨rfl, resolve_terminates_no_throw ctxSib Option.none barSibEntry [] rfl⟩

/-- C3: Cycle handling — entering a pattern whose identity is already in
the dirty set appends exactly one range error "Cyclic reference" and
returns `FluentNone`; consequently formatting the cyclic pair
`foo = { bar }`, `bar = { foo }` yields the string `"???"` with exactly
one range error. -/
theorem cyclic_reference_detection :
    (∀ (ctx : Ctx) (resolveE : Resolver) (pid : ℕ) (pelems : List Expr)
      (errs : List JSErr) (d : Finset ℕ), pid ∈ d →
      PatternR ctx resolveE pid pelems errs d =
        some (.none Option.none, errs ++ [.range "Cyclic reference"], d)) ∧
    formatF ctxCyc Option.none 10 fooCycEntry [] =
      some (some "???", [.range "Cyclic reference"]) := by
  constructor
  · intro ctx resolveE pid pelems errs d hpid
    simp [PatternR, hpid]
  · rfl

/-- Witness for C3 at a concrete input: pattern identity 0 is in the dirty
set, and entering it reports the cyclic-reference range error. -/
theorem cyclic_reference_detection_witness :
    (0 : ℕ) ∈ ({0} : Finset ℕ) ∧
    PatternR ctxCyc (TypeF ctxCyc Option.none 5) 0 [Expr.ref "bar"] [] {0} =
      some (.none Option.none, [JSErr.range "Cyclic reference"], {0}) := by
  refine ⟨by decide, ?_⟩
  have h := cyclic_reference_detection.1 ctxCyc (TypeF ctxCyc Option.none 5) 0
    [Expr.ref "bar"] [] {0} (by decide)
  simpa using h

/-- C9: Deterministic formatting — two invocations of `resolve`/`format`
with identical context, entry and argument bag (each with its own fresh
error list) produce identical values/output strings and append error lists
of identical content. -/
theorem format_two_run_deterministic :
    ∀ (ctx : Ctx) (args : ArgBag) (fuel : ℕ) (root : Entry)
      (e₁ e₂ : List JSErr),
      ((resolveF ctx args fuel root e₁).map (fun r => (r.1, r.2.drop e₁.length)) =
        (resolveF ctx args fuel root e₂).map (fun r => (r.1, r.2.drop e₂.length))) ∧
      ((formatF ctx args fuel root e₁).map (fun r => (r.1, r.2.drop e₁.length)) =
        (formatF ctx args fuel root e₂).map (fun r => (r.1, r.2.drop e₂.length))) := by
  intro ctx args fuel root e₁ e₂
  constructor
  · rcases resolveF_delta ctx args fuel root with h | ⟨v, δ, hr⟩
    · rw [h e₁, h e₂]
      rfl
    · rw [hr e₁, hr e₂]
      simp [List.drop_left]
  · rcases formatF_delta ctx args fuel root with h | ⟨v, δ, hr⟩
    · rw [h e₁, h e₂]
      rfl
    · rw [hr e₁, hr e₂]
      simp [List.drop_left]

/-- C10: Pattern resolution restores the dirty set on exit — whenever the
pattern resolver returns, the dirty set equals the one it was entered with,
so the pattern is no longer dirty afterwards (when it was not dirty on
entry), and two sibling references to the same message resolve without a
spurious cyclic-reference error (`bar = { foo } { foo }` formats cleanly). -/
theorem pattern_restores_dirty :
    (∀ (ctx : Ctx) (args : ArgBag) (fuel pid : ℕ) (pelems : List Expr)
      (errs : List JSErr) (d : Finset ℕ) (v : FluentValue)
      (errs' : List JSErr) (d' : Finset ℕ),
      PatternR ctx (TypeF ctx args fuel) pid pelems errs d = some (v, errs', d') →
      d' = d ∧ (pid ∉ d → pid ∉ d')) ∧
    formatF ctxSib Option.none 10 barSibEntry [] = some (some "Foo Foo", []) := by
  constructor
  · intro ctx args fuel pid pelems errs d v errs' d' h
    have hd := PatternR_dirty
      (fun e es dd r hh => TypeF_dirty fuel e es dd r hh) h
    have hd2 : d' = d := hd
    exact ⟨hd2, fun hp => hd2 ▸ hp⟩
  · rfl

/-- Witness for C10 at a concrete input: resolving the pattern of `foo`
starting from an empty dirty set returns with the dirty set empty again. -/
theorem pattern_restores_dirty_witness :
    PatternR ctxSib (TypeF ctxSib Option.none 5) 1 [Expr.str "Foo"] [] ∅ =
      some (.parts [.str "Foo"], [], ∅) ∧
    ((∅ : Finset ℕ) = ∅ ∧ ((1 : ℕ) ∉ (∅ : Finset ℕ) → (1 : ℕ) ∉ (∅ : Finset ℕ))) := by
  constructor
  · rfl
  · exact pattern_restores_dirty.1 ctxSib Option.none 5 1 [Expr.str "Foo"] [] ∅
      (.parts [.str "Foo"]) [] ∅ rfl

/-- C1 counterexample: a placeable that resolves to a plain string longer
than `MAX_PLACEABLE_LENGTH` is pushed into the result unchecked — the
resolved output contains the 2501-character string and the error list stays
empty, and formatting emits all 2501 characters; the claim as stated (every
placeable contributes at most 2500 characters, longer ones yield `"???"`
and a range error) is therefore false at this input. -/
theorem placeable_over_limit_unchecked :
    resolveF ctxLong argsLong 10 bazLongEntry [] =
      some (.parts [.str longStr], []) ∧
    formatF ctxLong argsLong 10 bazLongEntry [] = some (some longStr, []) ∧
    MAX_PLACEABLE_LENGTH < longStr.length := by
  refine ⟨rfl, rfl, ?_⟩
  have h : longStr.length = (List.replicate 2501 'a').length := rfl
  rw [List.length_replicate] at h
  rw [h]
  decide

/-- C1 (amended): the `MAX_PLACEABLE_LENGTH` cap applies to placeables that
resolve to a Parts list (a nested pattern): if its flattened character
length exceeds 2500 a range error is appended and a single `FluentNone`
(stringifying to `"???"`) replaces it, otherwise its parts are spliced; a
placeable resolving to any non-Parts value is pushed directly with no
length check, whatever its length. -/
theorem placeable_length_check_only_for_parts :
    (∀ (ctx : Ctx) (resolveE : Resolver) (pid : ℕ) (e : Expr)
      (errs errs1 : List JSErr) (d : Finset ℕ) (l : List FluentValue),
      pid ∉ d → isStrElem e = Option.none → ctx.useIsolating = false →
      resolveE e errs (insert pid d) = some (.parts l, errs1, insert pid d) →
      (MAX_PLACEABLE_LENGTH < PlaceableLength ctx l →
        PatternR ctx resolveE pid [e] errs d =
          some (.parts [.none Option.none],
            errs1 ++ [.range ("Too many characters in placeable (" ++
              toString (PlaceableLength ctx l) ++ ", max allowed is " ++
              toString MAX_PLACEABLE_LENGTH ++ ")")], d)) ∧
      (PlaceableLength ctx l ≤ MAX_PLACEABLE_LENGTH →
        PatternR ctx resolveE pid [e] errs d = some (.parts l, errs1, d))) ∧
    (∀ (ctx : Ctx) (resolveE : Resolver) (pid : ℕ) (e : Expr)
      (errs errs1 : List JSErr) (d : Finset ℕ) (v : FluentValue),
      pid ∉ d → isStrElem e = Option.none → ctx.useIsolating = false →
      resolveE e errs (insert pid d) = some (v, errs1, insert pid d) →
      (∀ l, v ≠ .parts l) →
      PatternR ctx resolveE pid [e] errs d = some (.parts [v], errs1, d)) := by
  constructor
  · intro ctx resolveE pid e errs errs1 d l hpid hstr hiso hres
    exact PatternR_single_parts ctx resolveE hpid hstr hiso hres
  · intro ctx resolveE pid e errs errs1 d v hpid hstr hiso hres hnp
    exact PatternR_single_nonparts ctx resolveE hpid hstr hiso hres hnp

/-- Witness for the amended C1 at concrete inputs: an over-long Parts
placeable is replaced by `FluentNone` plus a range error, while the same
over-long content as a plain string value is pushed through unchecked. -/
theorem placeable_length_check_only_for_parts_witness :
    ((0 : ℕ) ∉ (∅ : Finset ℕ) ∧ isStrElem (Expr.ext "x") = Option.none ∧
      ctxLong.useIsolating = false ∧
      MAX_PLACEABLE_LENGTH < PlaceableLength ctxLong [.str longStr]) ∧
    PatternR ctxLong (fun _ errs d => some (.parts [.str longStr], errs, d))
      0 [Expr.ext "x"] [] ∅ =
      some (.parts [.none Option.none],
        [.range ("Too many characters in placeable (" ++
          toString (PlaceableLength ctxLong [.str longStr]) ++
          ", max allowed is " ++ toString MAX_PLACEABLE_LENGTH ++ ")")], ∅) ∧
    PatternR ctxLong (fun _ errs d => some (.str longStr, errs, d))
      0 [Expr.ext "x"] [] ∅ =
      some (.parts [.str longStr], [], ∅) := by
  have hlen : PlaceableLength ctxLong [.str longStr] = 2501 := by
    have hPL : PlaceableLength ctxLong [.str longStr] = longStr.length := by
      simp only [PlaceableLength, List.foldl_cons, List.foldl_nil,
        FluentValue.valueOf, Nat.zero_add]
    have h2 : longStr.length = (List.replicate 2501 'a').length := rfl
    rw [List.length_replicate] at h2
    exact hPL.trans h2
  have hbig : MAX_PLACEABLE_LENGTH < PlaceableLength ctxLong [.str longStr] := by
    rw [hlen]
    decide
  refine ⟨⟨by decide, rfl, rfl, hbig⟩, ?_, ?_⟩
  · have h := (placeable_length_check_only_for_parts.1 ctxLong
      (fun _ errs d => some (.parts [.str longStr], errs, d))
      0 (Expr.ext "x") [] [] ∅ [.str longStr]
      (by decide) rfl rfl rfl).1 hbig
    simpa using h
  · have h := placeable_length_check_only_for_parts.2 ctxLong
      (fun _ errs d => some (.str longStr, errs, d))
      0 (Expr.ext "x") [] [] ∅ (.str longStr)
      (by decide) rfl rfl rfl (fun l hl => by cases hl)
    simpa using h

/-- C4 counterexample: with the en-US plural rules, the selector
`Number(1)` does not match the variant key `Keyword("1")` even though the
key equals the exact string form of the number (`String(1) = "1"`): the
keyword `match` method only consults the plural category ("one" here), so
the claimed additional exact-string match does not exist in the code. -/
theorem keyword_number_exact_match_fails :
    valueMatch ctxPl (.keyword "1") (.number (some 1) Option.none) = false ∧
    ctxPl.pluralSelect Option.none (some 1) = "one" := by
  constructor
  · rfl
  · rfl

/-- C4 (amended): when a select expression's selector resolves to
`Number(x)` and a variant key resolves to `Keyword(k)`, the key matches
exactly when `k` equals the plural category the context's plural-rules
formatter selects for `x` (using the number's own options); there is no
additional exact-string match. End to end (scenario 6):
`{ 1 -> *[one] A [other] B }` formats to `"A"` and
`{ 2 -> *[one] A [other] B }` formats to `"B"`. -/
theorem keyword_number_match_is_plural_category :
    (∀ (ctx : Ctx) (k : String) (q : Option ℚ) (opts : Option NamedOpts),
      valueMatch ctx (.keyword k) (.number q opts) =
        (k == ctx.pluralSelect opts q)) ∧
    formatF ctxPl Option.none 10 fooSelEntry [] = some (some "A", []) ∧
    formatF ctxPl Option.none 10 barSelEntry [] = some (some "B", []) := by
  refine ⟨fun ctx k q opts => rfl, rfl, rfl⟩

/-- C5 counterexample: the `FluentNumber` constructor eagerly parses its
input with `parseFloat`, so the two distinct textual forms "1.0" and
"1.00" construct identical runtime values — the original textual form is
not preserved in the stored value. -/
theorem fluent_number_discards_text :
    FluentNumberOfString "1.0" Option.none =
      FluentNumberOfString "1.00" Option.none ∧
    "1.0" ≠ "1.00" := by
  constructor
  · have h : parseJSNumber "1.0" = parseJSNumber "1.00" := by decide
    simp [FluentNumberOfString, h]
  · decide

/-- C5 (amended): constructing a `Number` runtime value eagerly applies
`parseFloat` and stores the parsed numeric value with the given options;
the stored value depends only on the parsed numeric, not on the source
text, and the resolver evaluates a number literal to exactly this
eagerly-parsed value with default options. -/
theorem fluent_number_stores_parsed_value :
    (∀ (s t : String) (opts : Option NamedOpts),
      parseJSNumber s = parseJSNumber t →
      FluentNumberOfString s opts = FluentNumberOfString t opts) ∧
    (∀ (ctx : Ctx) (args : ArgBag) (fuel : ℕ) (s : String)
      (errs : List JSErr) (d : Finset ℕ),
      TypeF ctx args (fuel + 1) (.num s) errs d =
        some (.number (parseJSNumber s) Option.none, errs, d)) := by
  constructor
  · intro s t opts h
    simp [FluentNumberOfString, h]
  · intro ctx args fuel s errs d
    rfl

/-- Witness for the amended C5 at a concrete input: "0.5" and "0.50" parse
to the same numeric and construct the same value, and the resolver
evaluates the `num` literal "0.5" to its parsed number. -/
theorem fluent_number_stores_parsed_value_witness :
    parseJSNumber "0.5" = parseJSNumber "0.50" ∧
    FluentNumberOfString "0.5" Option.none =
      FluentNumberOfString "0.50" Option.none ∧
    TypeF ctxPl Option.none 1 (.num "0.5") [] ∅ =
      some (.number (parseJSNumber "0.5") Option.none, [], ∅) := by
  refine ⟨by decide, ?_, ?_⟩
  · exact fluent_number_stores_parsed_value.1 "0.5" "0.50" Option.none (by decide)
  · exact fluent_number_stores_parsed_value.2 ctxPl Option.none 0 "0.5" [] ∅

/-- C6: Default fallthrough — with a valid default index, a select
expression whose selector resolves to `FluentNone` yields the variant at
the default index with no error beyond those already appended while
resolving the selector, and likewise when the selector resolves to a
proper value that matches no variant key. -/
theorem select_default_fallthrough :
    ∀ (ctx : Ctx) (resolveE : Resolver) (exp : Expr) (vars : List Variant)
      (dflt : ℕ) (errs errs1 : List JSErr) (d d1 : Finset ℕ)
      (h : dflt < vars.length),
      (∀ hint, resolveE exp errs d = some (.none hint, errs1, d1) →
        SelectR ctx resolveE (some exp) vars dflt errs d =
          some (.inl (vars.get ⟨dflt, h⟩), errs1, d1)) ∧
      (∀ v, resolveE exp errs d = some (v, errs1, d1) →
        (∀ hint, v ≠ .none hint) →
        findMatchingVariant ctx vars v = Option.none →
        SelectR ctx resolveE (some exp) vars dflt errs d =
          some (.inl (vars.get ⟨dflt, h⟩), errs1, d1)) := by
  intro ctx resolveE exp vars dflt errs errs1 d d1 h
  constructor
  · intro hint hres
    simp only [SelectR.eq_def]
    rw [hres]
    simp only [DefaultMemberR, List.getElem?_eq_getElem h]
    rfl
  · intro v hres hnone hfind
    simp only [SelectR.eq_def]
    rw [hres]
    cases v with
    | none hint => exact absurd rfl (hnone hint)
    | str s =>
        simp only [hfind, DefaultMemberR, List.getElem?_eq_getElem h]
        rfl
    | number a b =>
        simp only [hfind, DefaultMemberR, List.getElem?_eq_getElem h]
        rfl
    | datetime a b =>
        simp only [hfind, DefaultMemberR, List.getElem?_eq_getElem h]
        rfl
    | keyword k =>
        simp only [hfind, DefaultMemberR, List.getElem?_eq_getElem h]
        rfl
    | func n =>
        simp only [hfind, DefaultMemberR, List.getElem?_eq_getElem h]
        rfl
    | parts l =>
        simp only [hfind, DefaultMemberR, List.getElem?_eq_getElem h]
        rfl

/-- Variant list used by the C6 witness. -/
def selWitVars : List Variant := [⟨.kw "a", .str "A"⟩, ⟨.kw "b", .str "B"⟩]

/-- Witness for C6 at concrete inputs: a selector resolving to
`FluentNone` picks the default variant `[a] A` without appending errors,
and so does a keyword selector matching no variant key. -/
theorem select_default_fallthrough_witness :
    (0 < selWitVars.length ∧
      findMatchingVariant ctxPl selWitVars (.keyword "c") = Option.none) ∧
    SelectR ctxPl (fun _ errs d => some (.none Option.none, errs, d))
      (some (Expr.ext "x")) selWitVars 0 [] ∅ =
      some (.inl (selWitVars.get ⟨0, by decide⟩), [], ∅) ∧
    SelectR ctxPl (fun _ errs d => some (.keyword "c", errs, d))
      (some (Expr.ext "x")) selWitVars 0 [] ∅ =
      some (.inl (selWitVars.get ⟨0, by decide⟩), [], ∅) := by
  refine ⟨⟨by decide, rfl⟩, ?_, ?_⟩
  · exact (select_default_fallthrough ctxPl
      (fun _ errs d => some (.none Option.none, errs, d)) (Expr.ext "x")
      selWitVars 0 [] [] ∅ ∅ (by decide)).1 Option.none rfl
  · exact (select_default_fallthrough ctxPl
      (fun _ errs d => some (.keyword "c", errs, d)) (Expr.ext "x")
      selWitVars 0 [] [] ∅ ∅ (by decide)).2 (.keyword "c") rfl
      (fun hint hh => by cases hh) rfl

/-- C7: Isolation bracketing — with `useIsolating` on, every value a
placeable contributes to a pattern's result sits between an FSI (U+2068)
string and a PDI (U+2069) string (`IsolatedConcat`), literal fragments are
emitted raw; a pattern of literal fragments only resolves to exactly those
fragments, so when none of them contains either codepoint the joined
output contains neither. -/
theorem isolation_bracketing :
    (∀ (ctx : Ctx) (resolveE : Resolver) (pid : ℕ) (pelems : List Expr)
      (errs : List JSErr) (d : Finset ℕ) (res : List FluentValue)
      (errs' : List JSErr) (d' : Finset ℕ),
      ctx.useIsolating = true →
      PatternR ctx resolveE pid pelems errs d = some (.parts res, errs', d') →
      IsolatedConcat res) ∧
    (∀ (ctx : Ctx) (resolveE : Resolver) (pid : ℕ) (d : Finset ℕ)
      (ss : List String) (errs : List JSErr), pid ∉ d →
      PatternR ctx resolveE pid (ss.map Expr.str) errs d =
        some (.parts (ss.map FluentValue.str), errs, d)) ∧
    (∀ (ctx : Ctx) (ss : List String) (c : Char),
      (∀ s ∈ ss, c ∉ s.data) →
      c ∉ (joinParts ctx (.parts (ss.map FluentValue.str))).data) := by
  refine ⟨?_, ?_, ?_⟩
  · intro ctx resolveE pid pelems errs d res errs' d' hiso hpat
    exact PatternR_isolated hiso hpat
  · intro ctx resolveE pid d ss errs hpid
    exact PatternR_literal ctx resolveE hpid ss errs
  · intro ctx ss c h hc
    have hj : joinParts ctx (.parts (ss.map FluentValue.str)) = String.join ss := by
      simp [joinParts, List.map_map, Function.comp_def, FluentValue.valueOf]
    rw [hj, data_join] at hc
    obtain ⟨l, hl, hcl⟩ := List.mem_flatten.mp hc
    obtain ⟨s, hs, rfl⟩ := List.mem_map.mp hl
    exact h s hs hcl

/-- Witness for C7 at concrete inputs: an isolating context brackets the
placeable value `"B"` in FSI/PDI, a literal-only pattern resolves to its
fragments unchanged, and the joined literal-only output contains neither
isolation codepoint. -/
theorem isolation_bracketing_witness :
    (ctxIso.useIsolating = true ∧ (0 : ℕ) ∉ (∅ : Finset ℕ) ∧
      (∀ s ∈ ["Hello"], ('⁨' : Char) ∉ s.data) ∧
      (∀ s ∈ ["Hello"], ('⁩' : Char) ∉ s.data)) ∧
    IsolatedConcat [.str "a", .str FSI, .str "B", .str PDI] ∧
    PatternR ctxIso (TypeF ctxIso (some [("x", ArgVal.str "B")]) 5) 1
      (["Hello"].map Expr.str) [] ∅ =
      some (.parts (["Hello"].map FluentValue.str), [], ∅) ∧
    ('⁨' : Char) ∉ (joinParts ctxIso
      (.parts (["Hello"].map FluentValue.str))).data ∧
    ('⁩' : Char) ∉ (joinParts ctxIso
      (.parts (["Hello"].map FluentValue.str))).data := by
  refine ⟨⟨rfl, by decide, by decide, by decide⟩, ?_, ?_, ?_, ?_⟩
  · exact isolation_bracketing.1 ctxIso
      (TypeF ctxIso (some [("x", ArgVal.str "B")]) 5) 0
      [Expr.str "a", Expr.ext "x"] [] ∅
      [.str "a", .str FSI, .str "B", .str PDI] [] ∅ rfl rfl
  · exact isolation_bracketing.2.1 ctxIso
      (TypeF ctxIso (some [("x", ArgVal.str "B")]) 5) 1 ∅ ["Hello"] []
      (by decide)
  · exact isolation_bracketing.2.2 ctxIso ["Hello"] '⁨' (by decide)
  · exact isolation_bracketing.2.2 ctxIso ["Hello"] '⁩' (by decide)

/-- C8: External argument resolution — a missing bag or key appends a
reference error and returns `None(name)`; an already wrapped runtime value
is returned as-is; a string stays a raw string; a number is wrapped in
`Number`; a `Date` instant is wrapped in `DateTime`; any other kind appends
a type error and returns `None(name)`. -/
theorem external_argument_resolution :
    ∀ (name : String) (errs : List JSErr),
      (ExternalArgumentR Option.none name errs =
        (.none (some name),
          errs ++ [.reference ("Unknown external: " ++ name)])) ∧
      (∀ bag : List (String × ArgVal), bag.lookup name = Option.none →
        ExternalArgumentR (some bag) name errs =
          (.none (some name),
            errs ++ [.reference ("Unknown external: " ++ name)])) ∧
      (∀ (bag : List (String × ArgVal)) (w : WrappedV),
        bag.lookup name = some (.wrapped w) →
        ExternalArgumentR (some bag) name errs = (w.toValue, errs)) ∧
      (∀ (bag : List (String × ArgVal)) (s : String),
        bag.lookup name = some (.str s) →
        ExternalArgumentR (some bag) name errs = (.str s, errs)) ∧
      (∀ (bag : List (String × ArgVal)) (q : Option ℚ),
        bag.lookup name = some (.num q) →
        ExternalArgumentR (some bag) name errs = (.number q Option.none, errs)) ∧
      (∀ (bag : List (String × ArgVal)) (t : ℤ),
        bag.lookup name = some (.date t) →
        ExternalArgumentR (some bag) name errs =
          (.datetime t Option.none, errs)) ∧
      (∀ (bag : List (String × ArgVal)) (ty : String),
        bag.lookup name = some (.other ty) →
        ExternalArgumentR (some bag) name errs =
          (.none (some name),
            errs ++ [.typeErr ("Unsupported external type: " ++ name ++
              ", " ++ ty)])) := by
  intro name errs
  refine ⟨rfl, ?_, ?_, ?_, ?_, ?_, ?_⟩
  · intro bag hl
    simp [ExternalArgumentR, hl]
  · intro bag w hl
    simp [ExternalArgumentR, hl]
  · intro bag s hl
    simp [ExternalArgumentR, hl]
  · intro bag q hl
    simp [ExternalArgumentR, hl]
  · intro bag t hl
    simp [ExternalArgumentR, hl]
  · intro bag ty hl
    simp [ExternalArgumentR, hl]

/-- Witness for C8 at concrete inputs: each kind of bag value takes its
described branch. -/
theorem external_argument_resolution_witness :
    (([("y", ArgVal.str "s")] : List (String × ArgVal)).lookup "x" =
      Option.none ∧
      ([("x", ArgVal.wrapped (.wkeyword "k"))] :
        List (String × ArgVal)).lookup "x" = some (.wrapped (.wkeyword "k")) ∧
      ([("x", ArgVal.str "s")] : List (String × ArgVal)).lookup "x" =
        some (.str "s") ∧
      ([("x", ArgVal.num (some 2))] : List (String × ArgVal)).lookup "x" =
        some (.num (some 2)) ∧
      ([("x", ArgVal.date 7)] : List (String × ArgVal)).lookup "x" =
        some (.date 7) ∧
      ([("x", ArgVal.other "boolean")] : List (String × ArgVal)).lookup "x" =
        some (.other "boolean")) ∧
    ExternalArgumentR Option.none "x" [] =
      (.none (some "x"), [.reference "Unknown external: x"]) ∧
    ExternalArgumentR (some [("y", ArgVal.str "s")]) "x" [] =
      (.none (some "x"), [.reference "Unknown external: x"]) ∧
    ExternalArgumentR (some [("x", ArgVal.wrapped (.wkeyword "k"))]) "x" [] =
      (.keyword "k", []) ∧
    ExternalArgumentR (some [("x", ArgVal.str "s")]) "x" [] = (.str "s", []) ∧
    ExternalArgumentR (some [("x", ArgVal.num (some 2))]) "x" [] =
      (.number (some 2) Option.none, []) ∧
    ExternalArgumentR (some [("x", ArgVal.date 7)]) "x" [] =
      (.datetime 7 Option.none, []) ∧
    ExternalArgumentR (some [("x", ArgVal.other "boolean")]) "x" [] =
      (.none (some "x"), [.typeErr "Unsupported external type: x, boolean"]) := by
  refine ⟨⟨rfl, rfl, rfl, rfl, rfl, rfl⟩, ?_, ?_, ?_, ?_, ?_, ?_, ?_⟩
  · have h := (external_argument_resolution "x" []).1
    simpa using h
  · have h := (external_argument_resolution "x" []).2.1 [("y", ArgVal.str "s")] rfl
    simpa using h
  · have h := (external_argument_resolution "x" []).2.2.1
      [("x", ArgVal.wrapped (.wkeyword "k"))] (.wkeyword "k") rfl
    simpa using h
  · have h := (external_argument_resolution "x" []).2.2.2.1
      [("x", ArgVal.str "s")] "s" rfl
    simpa using h
  · have h := (external_argument_resolution "x" []).2.2.2.2.1
      [("x", ArgVal.num (some 2))] (some 2) rfl
    simpa using h
  · have h := (external_argument_resolution "x" []).2.2.2.2.2.1
      [("x", ArgVal.date 7)] 7 rfl
    simpa using h
  · have h := (external_argument_resolution "x" []).2.2.2.2.2.2
      [("x", ArgVal.other "boolean")] "boolean" rfl
    simpa using h
